import Mathlib

/-
Verification of the civicChain synchronization engine
(src/civic-backend/server.js) against its natural-language specification.

The JavaScript engine runs on a single-threaded event loop: code between
two await points runs atomically, and distinct async invocations interleave
only at await boundaries.  The shallow embedding below therefore models each
async function as a small state machine whose transitions are the atomic
segments between awaits; a scheduler (an arbitrary list of task/outcome
choices) decides the interleaving and the outcome of each awaited promise.

State that the source mutates:
  - processingComplaints      (a JS Set of complaint ids)          -> procMint
  - processingStatusUpdates   (a JS Set of "id:enum" key strings)  -> procStatus
  - the complaints table tx_hash column                            -> db
Ledger-mutating calls (contract.logComplaint / contract.updateComplaintStatus)
and their terminal outcomes are recorded as events so that theorems can speak
about how many submissions reach the ledger and in which order.
-/

namespace CivicChain

/-- Model of one row of the complaints table as read by the engine
(fields of server.js that the engine consults: id, status, category_id,
municipal_id, locationAB, tx_hash).  Fields that may be SQL NULL or absent
are Option valued. -/
structure Complaint where
  id : Nat
  status : String
  category_id : Option String
  municipal_id : Option String
  locationAB : Option String
  tx_hash : Option String
deriving DecidableEq

/-- JavaScript truthiness of a nullable string: null and the empty string
are falsy, every other string is truthy.  Used for the guard
if (complaint.tx_hash) at server.js line 87. -/
def strTruthy : Option String → Bool
  | none => false
  | some s => s != ""

/-- JavaScript a || b for a nullable string a and a string fallback b:
yields b when a is null or the empty string.  Used at server.js
lines 103 and 104. -/
def jsOrStr (a : Option String) (b : String) : String :=
  match a with
  | none => b
  | some s => if s = "" then b else s

/-- City payload of the mint operation, from server.js line 103:
complaint.municipal_id, or complaint.locationAB, or the literal
string Unknown. -/
def cityOf (c : Complaint) : String :=
  jsOrStr c.municipal_id (jsOrStr c.locationAB "Unknown")

/-- Category payload of the mint operation, from server.js line 104:
complaint.category_id or the literal string General. -/
def categoryOf (c : Complaint) : String :=
  jsOrStr c.category_id "General"

/-- ASCII lowercasing of a string, modelling the toLowerCase call of
mapStatusToEnum (server.js line 67). -/
def jsToLower (s : String) : String := ⟨s.data.map Char.toLower⟩

/-- Model of a JavaScript substring from index 0 of a given length,
for error.message.substring(0, 200) at server.js line 151. -/
def jsSubstr (s : String) (n : Nat) : String := ⟨s.data.take n⟩

/-- The status mapper mapStatusToEnum of server.js lines 66 to 72:
lowercase the status string, map pending to 0, resolved to 1,
verified to 2 and anything else to 0. -/
def mapStatusToEnum (status : String) : Nat :=
  let s := jsToLower status
  if s = "pending" then 0
  else if s = "resolved" then 1
  else if s = "verified" then 2
  else 0

/-- Failure marker written into tx_hash by the catch branch of
mintComplaintToBlockchain (server.js line 151): the literal text
ERROR followed by the first 200 characters of the error message. -/
def errorMark (msg : String) : String := "ERROR: " ++ jsSubstr msg 200

/-- In-flight key of a status update, the template string
complaintId:statusEnum of server.js line 167. -/
def statusKey (i e : Nat) : String := toString i ++ ":" ++ toString e

/-- Outcome of an awaited promise, chosen by the scheduler: resolution
with a string value (transaction hash, receipt hash) or rejection with
an error message. -/
inductive Outcome where
  | ok (s : String)
  | err (s : String)
deriving DecidableEq

/-- Terminal result of one invocation of mintComplaintToBlockchain. -/
inductive MintDone where
  | guardInFlight
  | guardMinted
  | confirmedSaved
  | confirmedSaveFailed
  | failedMarked
  | failedMarkFailed
deriving DecidableEq

/-- Program counter of one invocation of mintComplaintToBlockchain,
one value per suspension point of the async function. -/
inductive MintPhase where
  | entry
  | sent
  | confirmWait
  | dbWrite (h : String)
  | errWrite (m : String)
  | done (r : MintDone)
deriving DecidableEq

/-- Terminal result of one invocation of updateComplaintStatusOnChain. -/
inductive StatusDone where
  | guardInFlight
  | confirmed
  | failed
deriving DecidableEq

/-- Program counter of one invocation of updateComplaintStatusOnChain. -/
inductive StatusPhase where
  | entry
  | sent
  | confirmWait
  | done (r : StatusDone)
deriving DecidableEq

/-- One pending or running invocation of an engine coordinator: a mint
call or a status-update call, carrying the record snapshot it was
invoked with (JavaScript closures capture the payload row, not a live
view of the table). -/
inductive EngineTask where
  | mint (c : Complaint) (ph : MintPhase)
  | statusUpd (c : Complaint) (ph : StatusPhase)
deriving DecidableEq

/-- Observable events of a run: ledger submissions, their terminal
outcomes, and activation of the realtime subscription. -/
inductive Ev where
  | submitCreate (id : Nat) (city category : String)
  | createConfirmed (id : Nat)
  | createRejected (id : Nat)
  | submitStatus (id : Nat) (code : Nat)
  | statusConfirmed (id : Nat) (code : Nat)
  | statusRejected (id : Nat) (code : Nat)
  | subscribeActive
deriving DecidableEq

/-- Global state of the engine model: the two in-flight registries of
server.js lines 62 and 63, the tx_hash column of the complaints table,
the running tasks and the event log. -/
structure SysState where
  procMint : List Nat
  procStatus : List String
  db : Nat → Option String
  tasks : List EngineTask
  events : List Ev

/-- Pointwise update of the tx_hash column, modelling the supabase
update calls of server.js lines 125 to 128 and 148 to 153. -/
def dbUpdate (d : Nat → Option String) (i : Nat) (v : Option String) :
    Nat → Option String :=
  fun j => if j = i then v else d j

/-- One atomic segment of mintComplaintToBlockchain (server.js lines
75 to 160).  The entry segment runs the two guards and the registry
insertion with no suspension point in between, exactly as in the
source (lines 79 to 94): first the processingComplaints membership
test, then the tx_hash truthiness test, then the insertion, then the
logComplaint submission.  Subsequent segments resume after each await
with the outcome chosen by the scheduler; the catch branch writes the
error marker into tx_hash, and the finally branch always removes the
id from the registry. -/
def mintStep (s : SysState) (c : Complaint) (ph : MintPhase) (o : Outcome) :
    SysState × MintPhase :=
  match ph with
  | .entry =>
      if c.id ∈ s.procMint then
        (s, .done .guardInFlight)
      else if strTruthy c.tx_hash then
        (s, .done .guardMinted)
      else
        ({ s with procMint := c.id :: s.procMint,
                  events := s.events ++ [.submitCreate c.id (cityOf c) (categoryOf c)] },
         .sent)
  | .sent =>
      match o with
      | .ok _ => (s, .confirmWait)
      | .err m => ({ s with events := s.events ++ [.createRejected c.id] }, .errWrite m)
  | .confirmWait =>
      match o with
      | .ok h => ({ s with events := s.events ++ [.createConfirmed c.id] }, .dbWrite h)
      | .err m => ({ s with events := s.events ++ [.createRejected c.id] }, .errWrite m)
  | .dbWrite h =>
      match o with
      | .ok _ =>
          ({ s with db := dbUpdate s.db c.id (some h),
                    procMint := s.procMint.erase c.id }, .done .confirmedSaved)
      | .err _ =>
          ({ s with procMint := s.procMint.erase c.id }, .done .confirmedSaveFailed)
  | .errWrite m =>
      match o with
      | .ok _ =>
          ({ s with db := dbUpdate s.db c.id (some (errorMark m)),
                    procMint := s.procMint.erase c.id }, .done .failedMarked)
      | .err _ =>
          ({ s with procMint := s.procMint.erase c.id }, .done .failedMarkFailed)
  | .done r => (s, .done r)

/-- One atomic segment of updateComplaintStatusOnChain (server.js lines
163 to 185).  The entry segment computes the status enum and the
id:enum key, runs the registry guard and insertion atomically (lines
164 to 172) and submits updateComplaintStatus; the finally branch
removes the key on every terminal outcome. -/
def statusStep (s : SysState) (c : Complaint) (ph : StatusPhase) (o : Outcome) :
    SysState × StatusPhase :=
  let e := mapStatusToEnum c.status
  let k := statusKey c.id e
  match ph with
  | .entry =>
      if k ∈ s.procStatus then
        (s, .done .guardInFlight)
      else
        ({ s with procStatus := k :: s.procStatus,
                  events := s.events ++ [.submitStatus c.id e] }, .sent)
  | .sent =>
      match o with
      | .ok _ => (s, .confirmWait)
      | .err _ =>
          ({ s with procStatus := s.procStatus.erase k,
                    events := s.events ++ [.statusRejected c.id e] }, .done .failed)
  | .confirmWait =>
      match o with
      | .ok _ =>
          ({ s with procStatus := s.procStatus.erase k,
                    events := s.events ++ [.statusConfirmed c.id e] }, .done .confirmed)
      | .err _ =>
          ({ s with procStatus := s.procStatus.erase k,
                    events := s.events ++ [.statusRejected c.id e] }, .done .failed)
  | .done r => (s, .done r)

/-- Scheduler step: run one atomic segment of the chosen task with the
chosen await outcome.  Indices outside the task list are no-ops. -/
def sysStep (s : SysState) (a : Nat × Outcome) : SysState :=
  match s.tasks.get? a.1 with
  | none => s
  | some (.mint c ph) =>
      let r := mintStep s c ph a.2
      { r.1 with tasks := r.1.tasks.set a.1 (.mint c r.2) }
  | some (.statusUpd c ph) =>
      let r := statusStep s c ph a.2
      { r.1 with tasks := r.1.tasks.set a.1 (.statusUpd c r.2) }

/-- Run a whole schedule. -/
def sysExec (s : SysState) (sch : List (Nat × Outcome)) : SysState :=
  sch.foldl sysStep s

/-- Initial state: both registries empty (server.js lines 62 and 63),
a given tx_hash column, the given invocations all at their entry
point, and an empty event log. -/
def mkInit (ts : List EngineTask) (d : Nat → Option String) : SysState :=
  { procMint := [], procStatus := [], db := d, tasks := ts, events := [] }

/-- Ids of the create submissions in an event log, in order. -/
def submitIds (evs : List Ev) : List Nat :=
  evs.filterMap fun e =>
    match e with
    | .submitCreate i _ _ => some i
    | _ => none

/-- Ids of create submissions that reached a terminal outcome
(confirmed or rejected), in order. -/
def createTerminals (evs : List Ev) : List Nat :=
  evs.filterMap fun e =>
    match e with
    | .createConfirmed i => some i
    | .createRejected i => some i
    | _ => none

/-- Pairs (id, code) of the status-update submissions in an event
log, in order. -/
def statusSubmitPairs (evs : List Ev) : List (Nat × Nat) :=
  evs.filterMap fun e =>
    match e with
    | .submitStatus i c => some (i, c)
    | _ => none

/-- A mint invocation is in flight when it has acquired its registry
key and not yet released it. -/
def MintPhase.inFlight : MintPhase → Bool
  | .sent => true
  | .confirmWait => true
  | .dbWrite _ => true
  | .errWrite _ => true
  | _ => false

/-- A mint invocation has passed its guards when it is in flight or
completed after acquiring the key (every terminal reason other than the
two guard returns). -/
def MintPhase.pastGuards : MintPhase → Bool
  | .entry => false
  | .done .guardInFlight => false
  | .done .guardMinted => false
  | _ => true

/-- Contribution of one task to the list of in-flight mint ids. -/
def mintFlightOf : EngineTask → Option Nat
  | .mint c ph => if ph.inFlight then some c.id else none
  | _ => none

/-- Contribution of one task to the list of mint ids past their
guards. -/
def mintPastOf : EngineTask → Option Nat
  | .mint c ph => if ph.pastGuards then some c.id else none
  | _ => none

/-- Ids of the in-flight mint invocations. -/
def mintInFlightIds (ts : List EngineTask) : List Nat :=
  ts.filterMap mintFlightOf

/-- Ids of the mint invocations that passed their guards (each such
invocation submitted exactly one create). -/
def mintPastIds (ts : List EngineTask) : List Nat :=
  ts.filterMap mintPastOf

/-- A status invocation is in flight when it has acquired its key and
not yet released it. -/
def StatusPhase.inFlight : StatusPhase → Bool
  | .sent => true
  | .confirmWait => true
  | _ => false

/-- A status invocation has passed its guard. -/
def StatusPhase.pastGuards : StatusPhase → Bool
  | .entry => false
  | .done .guardInFlight => false
  | _ => true

/-- Contribution of one task to the in-flight status pairs. -/
def statusFlightOf : EngineTask → Option (Nat × Nat)
  | .statusUpd c ph =>
      if ph.inFlight then some (c.id, mapStatusToEnum c.status) else none
  | _ => none

/-- Contribution of one task to the status pairs past their guard. -/
def statusPastOf : EngineTask → Option (Nat × Nat)
  | .statusUpd c ph =>
      if ph.pastGuards then some (c.id, mapStatusToEnum c.status) else none
  | _ => none

/-- Pairs (id, code) of the in-flight status invocations. -/
def statusInFlightPairs (ts : List EngineTask) : List (Nat × Nat) :=
  ts.filterMap statusFlightOf

/-- Pairs (id, code) of the status invocations that passed their
guard. -/
def statusPastPairs (ts : List EngineTask) : List (Nat × Nat) :=
  ts.filterMap statusPastOf

/-- Registry keys of the in-flight status invocations. -/
def statusHolderKeys (ts : List EngineTask) : List String :=
  (statusInFlightPairs ts).map fun p => statusKey p.1 p.2

/-- A task has reached a terminal outcome. -/
def taskDone : EngineTask → Bool
  | .mint _ (.done _) => true
  | .statusUpd _ (.done _) => true
  | _ => false

/-- A mint task completed after acquiring its key (any terminal reason
other than the two guard returns). -/
def mintAcquiredDone : EngineTask → Bool
  | .mint _ (.done .guardInFlight) => false
  | .mint _ (.done .guardMinted) => false
  | .mint _ (.done _) => true
  | _ => false

/-- A status task completed after acquiring its key. -/
def statusAcquiredDone : EngineTask → Bool
  | .statusUpd _ (.done .guardInFlight) => false
  | .statusUpd _ (.done _) => true
  | _ => false

/-- Insertion of a complaint into a list sorted by ascending id. -/
def insertById (c : Complaint) : List Complaint → List Complaint
  | [] => [c]
  | d :: l => if c.id ≤ d.id then c :: d :: l else d :: insertById c l

/-- Insertion sort by ascending id, modelling the order clause of the
backlog query (server.js line 196). -/
def sortById : List Complaint → List Complaint
  | [] => []
  | c :: l => insertById c (sortById l)

/-- The backlog query of processExistingComplaints (server.js lines
192 to 196): all rows whose tx_hash is SQL NULL, ordered by ascending
id.  The record store is external to the repository; the query
semantics is the declared one (is tx_hash null, order by id
ascending). -/
def backlogFetch (db : List Complaint) : List Complaint :=
  sortById (db.filter fun c => c.tx_hash == none)

/-- Initial tx_hash column read off a table snapshot. -/
def dbMapOf (db : List Complaint) : Nat → Option String :=
  fun i => (db.find? fun c => c.id == i).bind fun c => c.tx_hash

/-- Program counter of the startup procedure: startServer awaits
processExistingComplaints (server.js line 373), whose loop awaits each
mint and then a fixed delay (lines 213 to 217), and only then calls
setupRealtimeListener (line 376). -/
inductive RPhase where
  | ready
  | waitMint
  | sleeping
  | finished
deriving DecidableEq

/-- State of the startup model: the engine state plus the reconciler
counter and phase. -/
structure StartState where
  sys : SysState
  ridx : Nat
  rph : RPhase

/-- Scheduler action during startup: advance the reconciler, or resume
one spawned mint invocation with an await outcome. -/
inductive StartAct where
  | recon
  | task (i : Nat) (o : Outcome)
deriving DecidableEq

/-- One atomic segment of the startup procedure.  In the ready phase
the loop body calls mintComplaintToBlockchain, whose synchronous
prefix (both guards plus registry insertion plus submission) runs
immediately at the call, so spawning the task and running its entry
segment form one atomic step.  The waitMint phase can only advance
once the awaited mint invocation has reached a terminal outcome; the
sleeping phase models the fixed 2000 ms delay; when the fetched list
is exhausted the listener subscription is activated. -/
def startStep (fetched : List Complaint) (st : StartState) :
    StartAct → StartState
  | .task i o => { st with sys := sysStep st.sys (i, o) }
  | .recon =>
    match st.rph with
    | .ready =>
      match fetched.get? st.ridx with
      | some c =>
          let s1 := { st.sys with tasks := st.sys.tasks ++ [EngineTask.mint c .entry] }
          { st with sys := sysStep s1 (st.sys.tasks.length, .ok ""),
                    rph := .waitMint }
      | none =>
          { st with
              sys := { st.sys with events := st.sys.events ++ [.subscribeActive] },
              rph := .finished }
    | .waitMint =>
      match st.sys.tasks.get? st.ridx with
      | some t => if taskDone t then { st with rph := .sleeping } else st
      | none => st
    | .sleeping => { st with ridx := st.ridx + 1, rph := .ready }
    | .finished => st

/-- Initial startup state: no tasks yet, registries empty, reconciler
at the head of the fetched list. -/
def startInit (db : List Complaint) : StartState :=
  { sys := mkInit [] (dbMapOf db), ridx := 0, rph := .ready }

/-- Run a whole startup schedule. -/
def startExec (db : List Complaint) (sch : List StartAct) : StartState :=
  sch.foldl (startStep (backlogFetch db)) (startInit db)

/-! Helper lemmas about lists and strings. -/

theorem get_set_decomp {α : Type} (l : List α) (i : Nat) (t t' : α)
    (h : l.get? i = some t) :
    ∃ l₁ l₂, l = l₁ ++ t :: l₂ ∧ l.set i t' = l₁ ++ t' :: l₂ ∧ l₁.length = i := by
  induction l generalizing i with
  | nil => simp at h
  | cons a as ih =>
    cases i with
    | zero =>
      simp only [List.get?] at h
      obtain rfl : a = t := by injection h
      exact ⟨[], as, rfl, rfl, rfl⟩
    | succ n =>
      obtain ⟨l₁, l₂, h1, h2, h3⟩ := ih n (by simpa using h)
      exact ⟨a :: l₁, l₂, by simp [h1], by simp [List.set, h2], by simp [h3]⟩

theorem string_append_cancel_left {a b c : String} (h : a ++ b = a ++ c) : b = c := by
  apply String.ext
  have hd : (a ++ b).data = (a ++ c).data := by rw [h]
  rw [String.data_append, String.data_append] at hd
  exact List.append_cancel_left hd

theorem statusKey_ne_of_code_ne {i e f : Nat} (he : e ≤ 2) (hf : f ≤ 2)
    (hne : e ≠ f) : statusKey i e ≠ statusKey i f := by
  intro h
  unfold statusKey at h
  rw [String.append_assoc, String.append_assoc] at h
  have h2 := string_append_cancel_left h
  have h3 := string_append_cancel_left h2
  interval_cases e <;> interval_cases f <;> simp_all <;>
    exact absurd h3 (by decide)

theorem mapStatusToEnum_le_two (s : String) : mapStatusToEnum s ≤ 2 := by
  unfold mapStatusToEnum
  dsimp only
  split_ifs <;> omega

theorem insertById_perm (c : Complaint) (l : List Complaint) :
    (insertById c l).Perm (c :: l) := by
  induction l with
  | nil => simp [insertById]
  | cons d l ih =>
    unfold insertById
    split_ifs with h
    · exact List.Perm.refl _
    · exact (List.Perm.cons d ih).trans (List.Perm.swap c d l)

theorem sortById_perm (l : List Complaint) : (sortById l).Perm l := by
  induction l with
  | nil => simp [sortById]
  | cons c l ih =>
    exact (insertById_perm c (sortById l)).trans (List.Perm.cons c ih)

theorem insertById_sorted (c : Complaint) (l : List Complaint)
    (h : List.Sorted (fun a b => a.id ≤ b.id) l) :
    List.Sorted (fun a b => a.id ≤ b.id) (insertById c l) := by
  induction l with
  | nil => simp [insertById]
  | cons d l ih =>
    unfold insertById
    rw [List.sorted_cons] at h
    split_ifs with hcd
    · refine List.sorted_cons.mpr ⟨?_, List.sorted_cons.mpr h⟩
      intro b hb
      rcases List.mem_cons.mp hb with rfl | hb
      · exact hcd
      · exact le_trans hcd (h.1 b hb)
    · refine List.sorted_cons.mpr ⟨?_, ih h.2⟩
      intro b hb
      have := (insertById_perm c l).mem_iff.mp hb
      rcases List.mem_cons.mp this with rfl | hb2
      · omega
      · exact h.1 b hb2

theorem sortById_sorted (l : List Complaint) :
    List.Sorted (fun a b => a.id ≤ b.id) (sortById l) := by
  induction l with
  | nil => simp [sortById]
  | cons c l ih => exact insertById_sorted c (sortById l) ih

theorem backlogFetch_mem (db : List Complaint) (c : Complaint) :
    c ∈ backlogFetch db ↔ c ∈ db ∧ c.tx_hash = none := by
  unfold backlogFetch
  rw [(sortById_perm _).mem_iff, List.mem_filter]
  simp

theorem backlogFetch_sorted (db : List Complaint) :
    List.Sorted (fun a b => a.id ≤ b.id) (backlogFetch db) :=
  sortById_sorted _

theorem backlogFetch_nodup (db : List Complaint)
    (h : (db.map fun c => c.id).Nodup) :
    ((backlogFetch db).map fun c => c.id).Nodup := by
  have h1 : (db.filter fun c => c.tx_hash == none).Sublist db :=
    List.filter_sublist db
  have h2 := (h1.map fun c => c.id).nodup h
  exact (((sortById_perm _).map fun c => c.id).symm.nodup) h2

theorem backlogFetch_null (db : List Complaint) (c : Complaint)
    (h : c ∈ backlogFetch db) : c.tx_hash = none :=
  ((backlogFetch_mem db c).mp h).2

/-! Master invariant of the live engine model: each registry holds
exactly the keys of the invocations that are currently in flight, no
key is duplicated, and the number of submissions in the event log for
each key equals the number of invocations that passed their guards for
that key. -/

/-- Registry invariant of the engine (server.js lines 62, 63, 79, 94,
158, 168, 172, 183): a key is registered exactly while an invocation
holding it is in flight, registries have no duplicates, submissions
are counted by invocations past their guards, and an invocation that
returned through the already-minted guard saw a truthy tx_hash. -/
structure Inv (s : SysState) : Prop where
  mintMem : ∀ i, i ∈ s.procMint ↔ i ∈ mintInFlightIds s.tasks
  mintNodupReg : s.procMint.Nodup
  mintNodupHold : (mintInFlightIds s.tasks).Nodup
  mintCount : ∀ i, (submitIds s.events).count i = (mintPastIds s.tasks).count i
  statusMem : ∀ k, k ∈ s.procStatus ↔ k ∈ statusHolderKeys s.tasks
  statusNodupReg : s.procStatus.Nodup
  statusNodupHold : (statusHolderKeys s.tasks).Nodup
  statusCount : ∀ p, (statusSubmitPairs s.events).count p
      = (statusPastPairs s.tasks).count p
  guardMintedTruthy : ∀ c, EngineTask.mint c (.done .guardMinted) ∈ s.tasks →
      strTruthy c.tx_hash = true

theorem filterMap_middle {α β : Type} (f : α → Option β) (l₁ l₂ : List α) (t : α) :
    List.filterMap f (l₁ ++ t :: l₂)
      = List.filterMap f l₁ ++ ((f t).toList ++ List.filterMap f l₂) := by
  rw [List.filterMap_append, List.filterMap_cons]
  cases f t <;> simp

/-- Invariant preservation for a segment that neither acquires nor
releases a key: the stepped task keeps the same contributions, the
appended events contain no submissions, and the registries, table and
other tasks are untouched. -/
theorem inv_congr (s : SysState) (hInv : Inv s) (l₁ l₂ : List EngineTask)
    (t t' : EngineTask) (es : List Ev) (d' : Nat → Option String)
    (hdec : s.tasks = l₁ ++ t :: l₂)
    (h1 : mintFlightOf t' = mintFlightOf t)
    (h2 : mintPastOf t' = mintPastOf t)
    (h3 : statusFlightOf t' = statusFlightOf t)
    (h4 : statusPastOf t' = statusPastOf t)
    (h5 : ∀ c, t' = EngineTask.mint c (.done .guardMinted) →
        strTruthy c.tx_hash = true)
    (h6 : submitIds es = [])
    (h7 : statusSubmitPairs es = []) :
    Inv { s with tasks := l₁ ++ t' :: l₂, events := s.events ++ es, db := d' } := by
  have e1 : mintInFlightIds (l₁ ++ t' :: l₂) = mintInFlightIds s.tasks := by
    rw [hdec]; unfold mintInFlightIds
    rw [filterMap_middle, filterMap_middle, h1]
  have e2 : mintPastIds (l₁ ++ t' :: l₂) = mintPastIds s.tasks := by
    rw [hdec]; unfold mintPastIds
    rw [filterMap_middle, filterMap_middle, h2]
  have e3 : statusInFlightPairs (l₁ ++ t' :: l₂) = statusInFlightPairs s.tasks := by
    rw [hdec]; unfold statusInFlightPairs
    rw [filterMap_middle, filterMap_middle, h3]
  have e4 : statusPastPairs (l₁ ++ t' :: l₂) = statusPastPairs s.tasks := by
    rw [hdec]; unfold statusPastPairs
    rw [filterMap_middle, filterMap_middle, h4]
  have e5 : submitIds (s.events ++ es) = submitIds s.events := by
    unfold submitIds at h6 ⊢
    rw [List.filterMap_append, h6, List.append_nil]
  have e6 : statusSubmitPairs (s.events ++ es) = statusSubmitPairs s.events := by
    unfold statusSubmitPairs at h7 ⊢
    rw [List.filterMap_append, h7, List.append_nil]
  refine ⟨?_, hInv.mintNodupReg, ?_, ?_, ?_, hInv.statusNodupReg, ?_, ?_, ?_⟩
  · intro i; simpa [e1] using hInv.mintMem i
  · simpa [e1] using hInv.mintNodupHold
  · intro i; simpa [e2, e5] using hInv.mintCount i
  · intro k; simpa [statusHolderKeys, e3] using hInv.statusMem k
  · simpa [statusHolderKeys, e3] using hInv.statusNodupHold
  · intro p; simpa [e4, e6] using hInv.statusCount p
  · intro c hc
    rcases List.mem_append.mp hc with hc1 | hc2
    · exact hInv.guardMintedTruthy c (by rw [hdec]; exact List.mem_append_left _ hc1)
    · rcases List.mem_cons.mp hc2 with hc3 | hc4
      · exact h5 c hc3.symm
      · exact hInv.guardMintedTruthy c
          (by rw [hdec]
              exact List.mem_append_right _ (List.mem_cons_of_mem _ hc4))

/-- Invariant preservation for the acquiring entry segment of a mint
invocation (server.js lines 79 to 94 with both guards passing). -/
theorem inv_mint_acquire (s : SysState) (hInv : Inv s) (l₁ l₂ : List EngineTask)
    (c : Complaint)
    (hdec : s.tasks = l₁ ++ EngineTask.mint c .entry :: l₂)
    (hnotin : c.id ∉ s.procMint) :
    Inv { s with tasks := l₁ ++ EngineTask.mint c .sent :: l₂,
                 procMint := c.id :: s.procMint,
                 events := s.events ++ [.submitCreate c.id (cityOf c) (categoryOf c)] } := by
  have hold : mintInFlightIds s.tasks
      = List.filterMap mintFlightOf l₁ ++ List.filterMap mintFlightOf l₂ := by
    rw [hdec]; unfold mintInFlightIds; rw [filterMap_middle]
    simp [mintFlightOf, MintPhase.inFlight]
  have hnew : mintInFlightIds (l₁ ++ EngineTask.mint c .sent :: l₂)
      = List.filterMap mintFlightOf l₁ ++ c.id :: List.filterMap mintFlightOf l₂ := by
    unfold mintInFlightIds; rw [filterMap_middle]
    simp [mintFlightOf, MintPhase.inFlight]
  have holdp : mintPastIds s.tasks
      = List.filterMap mintPastOf l₁ ++ List.filterMap mintPastOf l₂ := by
    rw [hdec]; unfold mintPastIds; rw [filterMap_middle]
    simp [mintPastOf, MintPhase.pastGuards]
  have hnewp : mintPastIds (l₁ ++ EngineTask.mint c .sent :: l₂)
      = List.filterMap mintPastOf l₁ ++ c.id :: List.filterMap mintPastOf l₂ := by
    unfold mintPastIds; rw [filterMap_middle]
    simp [mintPastOf, MintPhase.pastGuards]
  have hsf : statusInFlightPairs (l₁ ++ EngineTask.mint c .sent :: l₂)
      = statusInFlightPairs s.tasks := by
    rw [hdec]; unfold statusInFlightPairs
    rw [filterMap_middle, filterMap_middle]; rfl
  have hsp : statusPastPairs (l₁ ++ EngineTask.mint c .sent :: l₂)
      = statusPastPairs s.tasks := by
    rw [hdec]; unfold statusPastPairs
    rw [filterMap_middle, filterMap_middle]; rfl
  have hsub : submitIds (s.events ++ [.submitCreate c.id (cityOf c) (categoryOf c)])
      = submitIds s.events ++ [c.id] := by
    unfold submitIds; rw [List.filterMap_append]; rfl
  have hssub : statusSubmitPairs
      (s.events ++ [.submitCreate c.id (cityOf c) (categoryOf c)])
      = statusSubmitPairs s.events := by
    unfold statusSubmitPairs; rw [List.filterMap_append]; simp
  have hcni : c.id ∉ List.filterMap mintFlightOf l₁ ++ List.filterMap mintFlightOf l₂ := by
    rw [← hold]; exact fun hc => hnotin ((hInv.mintMem c.id).mpr hc)
  refine ⟨?_, ?_, ?_, ?_, ?_, hInv.statusNodupReg, ?_, ?_, ?_⟩
  · intro j
    simp only [hnew, List.mem_cons, List.mem_append]
    have := hInv.mintMem j
    rw [hold] at this
    simp only [List.mem_append] at this
    tauto
  · exact List.nodup_cons.mpr ⟨hnotin, hInv.mintNodupReg⟩
  · rw [hnew, List.nodup_middle, List.nodup_cons]
    refine ⟨hcni, ?_⟩
    have := hInv.mintNodupHold
    rwa [hold] at this
  · intro j
    rw [hsub, hnewp]
    have hthis := hInv.mintCount j
    rw [holdp] at hthis
    simp only [List.count_append] at hthis
    simp only [List.count_append, List.count_cons, List.count_nil]
    split_ifs <;> omega
  · intro k; simpa [statusHolderKeys, hsf] using hInv.statusMem k
  · simpa [statusHolderKeys, hsf] using hInv.statusNodupHold
  · intro p; simpa [hsp, hssub] using hInv.statusCount p
  · intro c0 hc
    rcases List.mem_append.mp hc with hc1 | hc2
    · exact hInv.guardMintedTruthy c0 (by rw [hdec]; exact List.mem_append_left _ hc1)
    · rcases List.mem_cons.mp hc2 with hc3 | hc4
      · cases hc3
      · exact hInv.guardMintedTruthy c0
          (by rw [hdec]
              exact List.mem_append_right _ (List.mem_cons_of_mem _ hc4))

/-- Invariant preservation for the releasing final segment of a mint
invocation (server.js lines 157 to 159, reached on every terminal
outcome after the guards passed). -/
theorem inv_mint_release (s : SysState) (hInv : Inv s) (l₁ l₂ : List EngineTask)
    (c : Complaint) (ph : MintPhase) (r : MintDone) (d' : Nat → Option String)
    (hdec : s.tasks = l₁ ++ EngineTask.mint c ph :: l₂)
    (hfl : ph.inFlight = true)
    (hpast : ph.pastGuards = true)
    (hrp : (MintPhase.done r).pastGuards = true)
    (hrg : r ≠ MintDone.guardMinted) :
    Inv { s with tasks := l₁ ++ EngineTask.mint c (.done r) :: l₂,
                 procMint := s.procMint.erase c.id, db := d' } := by
  have hold : mintInFlightIds s.tasks
      = List.filterMap mintFlightOf l₁ ++ c.id :: List.filterMap mintFlightOf l₂ := by
    rw [hdec]; unfold mintInFlightIds; rw [filterMap_middle]
    simp [mintFlightOf, hfl]
  have hnew : mintInFlightIds (l₁ ++ EngineTask.mint c (.done r) :: l₂)
      = List.filterMap mintFlightOf l₁ ++ List.filterMap mintFlightOf l₂ := by
    unfold mintInFlightIds; rw [filterMap_middle]
    simp [mintFlightOf, MintPhase.inFlight]
  have holdp : mintPastIds s.tasks
      = List.filterMap mintPastOf l₁ ++ c.id :: List.filterMap mintPastOf l₂ := by
    rw [hdec]; unfold mintPastIds; rw [filterMap_middle]
    simp [mintPastOf, hpast]
  have hnewp : mintPastIds (l₁ ++ EngineTask.mint c (.done r) :: l₂)
      = List.filterMap mintPastOf l₁ ++ c.id :: List.filterMap mintPastOf l₂ := by
    unfold mintPastIds; rw [filterMap_middle]
    simp [mintPastOf, hrp]
  have hsf : statusInFlightPairs (l₁ ++ EngineTask.mint c (.done r) :: l₂)
      = statusInFlightPairs s.tasks := by
    rw [hdec]; unfold statusInFlightPairs
    rw [filterMap_middle, filterMap_middle]; rfl
  have hsp : statusPastPairs (l₁ ++ EngineTask.mint c (.done r) :: l₂)
      = statusPastPairs s.tasks := by
    rw [hdec]; unfold statusPastPairs
    rw [filterMap_middle, filterMap_middle]; rfl
  have hmid := hInv.mintNodupHold
  rw [hold, List.nodup_middle, List.nodup_cons] at hmid
  refine ⟨?_, hInv.mintNodupReg.erase _, ?_, ?_, ?_, hInv.statusNodupReg, ?_, ?_, ?_⟩
  · intro j
    rw [hInv.mintNodupReg.mem_erase_iff, hnew]
    have := hInv.mintMem j
    rw [hold] at this
    rw [this]
    simp only [List.mem_append, List.mem_cons]
    constructor
    · rintro ⟨hne, h1 | h2 | h3⟩
      · exact Or.inl h1
      · exact absurd h2 hne
      · exact Or.inr h3
    · intro h
      refine ⟨?_, by tauto⟩
      rintro rfl
      exact hmid.1 (List.mem_append.mpr h)
  · rw [hnew]; exact hmid.2
  · intro j
    rw [hnewp]
    have := hInv.mintCount j
    rw [holdp] at this
    exact this
  · intro k; simpa [statusHolderKeys, hsf] using hInv.statusMem k
  · simpa [statusHolderKeys, hsf] using hInv.statusNodupHold
  · intro p; simpa [hsp] using hInv.statusCount p
  · intro c0 hc
    rcases List.mem_append.mp hc with hc1 | hc2
    · exact hInv.guardMintedTruthy c0 (by rw [hdec]; exact List.mem_append_left _ hc1)
    · rcases List.mem_cons.mp hc2 with hc3 | hc4
      · exfalso
        injection hc3 with hca hcb
        injection hcb with hcc
        exact hrg hcc.symm
      · exact hInv.guardMintedTruthy c0
          (by rw [hdec]
              exact List.mem_append_right _ (List.mem_cons_of_mem _ hc4))

/-- Invariant preservation for the acquiring entry segment of a
status-update invocation (server.js lines 164 to 176 with the guard
passing). -/
theorem inv_status_acquire (s : SysState) (hInv : Inv s) (l₁ l₂ : List EngineTask)
    (c : Complaint)
    (hdec : s.tasks = l₁ ++ EngineTask.statusUpd c .entry :: l₂)
    (hnotin : statusKey c.id (mapStatusToEnum c.status) ∉ s.procStatus) :
    Inv { s with tasks := l₁ ++ EngineTask.statusUpd c .sent :: l₂,
                 procStatus := statusKey c.id (mapStatusToEnum c.status) :: s.procStatus,
                 events := s.events ++ [.submitStatus c.id (mapStatusToEnum c.status)] } := by
  have hold : statusInFlightPairs s.tasks
      = List.filterMap statusFlightOf l₁ ++ List.filterMap statusFlightOf l₂ := by
    rw [hdec]; unfold statusInFlightPairs; rw [filterMap_middle]
    simp [statusFlightOf, StatusPhase.inFlight]
  have hnew : statusInFlightPairs (l₁ ++ EngineTask.statusUpd c .sent :: l₂)
      = List.filterMap statusFlightOf l₁
        ++ (c.id, mapStatusToEnum c.status) :: List.filterMap statusFlightOf l₂ := by
    unfold statusInFlightPairs; rw [filterMap_middle]
    simp [statusFlightOf, StatusPhase.inFlight]
  have holdp : statusPastPairs s.tasks
      = List.filterMap statusPastOf l₁ ++ List.filterMap statusPastOf l₂ := by
    rw [hdec]; unfold statusPastPairs; rw [filterMap_middle]
    simp [statusPastOf, StatusPhase.pastGuards]
  have hnewp : statusPastPairs (l₁ ++ EngineTask.statusUpd c .sent :: l₂)
      = List.filterMap statusPastOf l₁
        ++ (c.id, mapStatusToEnum c.status) :: List.filterMap statusPastOf l₂ := by
    unfold statusPastPairs; rw [filterMap_middle]
    simp [statusPastOf, StatusPhase.pastGuards]
  have hmf : mintInFlightIds (l₁ ++ EngineTask.statusUpd c .sent :: l₂)
      = mintInFlightIds s.tasks := by
    rw [hdec]; unfold mintInFlightIds
    rw [filterMap_middle, filterMap_middle]; rfl
  have hmp : mintPastIds (l₁ ++ EngineTask.statusUpd c .sent :: l₂)
      = mintPastIds s.tasks := by
    rw [hdec]; unfold mintPastIds
    rw [filterMap_middle, filterMap_middle]; rfl
  have hsub : submitIds (s.events ++ [.submitStatus c.id (mapStatusToEnum c.status)])
      = submitIds s.events := by
    unfold submitIds; rw [List.filterMap_append]; simp
  have hssub : statusSubmitPairs
      (s.events ++ [.submitStatus c.id (mapStatusToEnum c.status)])
      = statusSubmitPairs s.events ++ [(c.id, mapStatusToEnum c.status)] := by
    unfold statusSubmitPairs; rw [List.filterMap_append]; rfl
  have hkni : statusKey c.id (mapStatusToEnum c.status)
      ∉ statusHolderKeys s.tasks :=
    fun hc => hnotin ((hInv.statusMem _).mpr hc)
  rw [statusHolderKeys, hold, List.map_append] at hkni
  refine ⟨?_, hInv.mintNodupReg, ?_, ?_, ?_, ?_, ?_, ?_, ?_⟩
  · intro j; simpa [hmf] using hInv.mintMem j
  · simpa [hmf] using hInv.mintNodupHold
  · intro j; simpa [hsub, hmp] using hInv.mintCount j
  · intro k0
    simp only [statusHolderKeys, hnew, List.map_append, List.map_cons,
      List.mem_cons, List.mem_append]
    have := hInv.statusMem k0
    rw [statusHolderKeys, hold, List.map_append] at this
    simp only [List.mem_append] at this
    tauto
  · exact List.nodup_cons.mpr ⟨hnotin, hInv.statusNodupReg⟩
  · rw [statusHolderKeys, hnew, List.map_append, List.map_cons]
    rw [List.nodup_middle, List.nodup_cons]
    refine ⟨by simpa using hkni, ?_⟩
    have := hInv.statusNodupHold
    rw [statusHolderKeys, hold, List.map_append] at this
    simpa using this
  · intro p
    rw [hssub, hnewp]
    have hthis := hInv.statusCount p
    rw [holdp] at hthis
    simp only [List.count_append] at hthis
    simp only [List.count_append, List.count_cons, List.count_nil]
    split_ifs <;> omega
  · intro c0 hc
    rcases List.mem_append.mp hc with hc1 | hc2
    · exact hInv.guardMintedTruthy c0 (by rw [hdec]; exact List.mem_append_left _ hc1)
    · rcases List.mem_cons.mp hc2 with hc3 | hc4
      · cases hc3
      · exact hInv.guardMintedTruthy c0
          (by rw [hdec]
              exact List.mem_append_right _ (List.mem_cons_of_mem _ hc4))

/-- Invariant preservation for the releasing final segment of a
status-update invocation (server.js lines 182 to 184). -/
theorem inv_status_release (s : SysState) (hInv : Inv s) (l₁ l₂ : List EngineTask)
    (c : Complaint) (ph : StatusPhase) (r : StatusDone) (es : List Ev)
    (hdec : s.tasks = l₁ ++ EngineTask.statusUpd c ph :: l₂)
    (hfl : ph.inFlight = true)
    (hpast : ph.pastGuards = true)
    (hrp : (StatusPhase.done r).pastGuards = true)
    (h6 : submitIds es = [])
    (h7 : statusSubmitPairs es = []) :
    Inv { s with tasks := l₁ ++ EngineTask.statusUpd c (.done r) :: l₂,
                 procStatus := s.procStatus.erase
                   (statusKey c.id (mapStatusToEnum c.status)),
                 events := s.events ++ es } := by
  have hold : statusInFlightPairs s.tasks
      = List.filterMap statusFlightOf l₁
        ++ (c.id, mapStatusToEnum c.status) :: List.filterMap statusFlightOf l₂ := by
    rw [hdec]; unfold statusInFlightPairs; rw [filterMap_middle]
    simp [statusFlightOf, hfl]
  have hnew : statusInFlightPairs (l₁ ++ EngineTask.statusUpd c (.done r) :: l₂)
      = List.filterMap statusFlightOf l₁ ++ List.filterMap statusFlightOf l₂ := by
    unfold statusInFlightPairs; rw [filterMap_middle]
    simp [statusFlightOf, StatusPhase.inFlight]
  have holdp : statusPastPairs s.tasks
      = List.filterMap statusPastOf l₁
        ++ (c.id, mapStatusToEnum c.status) :: List.filterMap statusPastOf l₂ := by
    rw [hdec]; unfold statusPastPairs; rw [filterMap_middle]
    simp [statusPastOf, hpast]
  have hnewp : statusPastPairs (l₁ ++ EngineTask.statusUpd c (.done r) :: l₂)
      = List.filterMap statusPastOf l₁
        ++ (c.id, mapStatusToEnum c.status) :: List.filterMap statusPastOf l₂ := by
    unfold statusPastPairs; rw [filterMap_middle]
    simp [statusPastOf, hrp]
  have hmf : mintInFlightIds (l₁ ++ EngineTask.statusUpd c (.done r) :: l₂)
      = mintInFlightIds s.tasks := by
    rw [hdec]; unfold mintInFlightIds
    rw [filterMap_middle, filterMap_middle]; rfl
  have hmp : mintPastIds (l₁ ++ EngineTask.statusUpd c (.done r) :: l₂)
      = mintPastIds s.tasks := by
    rw [hdec]; unfold mintPastIds
    rw [filterMap_middle, filterMap_middle]; rfl
  have hsub : submitIds (s.events ++ es) = submitIds s.events := by
    unfold submitIds at h6 ⊢
    rw [List.filterMap_append, h6, List.append_nil]
  have hssub : statusSubmitPairs (s.events ++ es) = statusSubmitPairs s.events := by
    unfold statusSubmitPairs at h7 ⊢
    rw [List.filterMap_append, h7, List.append_nil]
  have hmid := hInv.statusNodupHold
  rw [statusHolderKeys, hold, List.map_append, List.map_cons] at hmid
  rw [List.nodup_middle, List.nodup_cons] at hmid
  refine ⟨?_, hInv.mintNodupReg, ?_, ?_, ?_, hInv.statusNodupReg.erase _, ?_, ?_, ?_⟩
  · intro j; simpa [hmf] using hInv.mintMem j
  · simpa [hmf] using hInv.mintNodupHold
  · intro j; simpa [hsub, hmp] using hInv.mintCount j
  · intro k0
    rw [hInv.statusNodupReg.mem_erase_iff]
    rw [statusHolderKeys, hnew, List.map_append]
    have := hInv.statusMem k0
    rw [statusHolderKeys, hold, List.map_append, List.map_cons] at this
    rw [this]
    simp only [List.mem_append, List.mem_cons]
    constructor
    · rintro ⟨hne, h1 | h2 | h3⟩
      · exact Or.inl h1
      · exact absurd h2 hne
      · exact Or.inr h3
    · intro h
      refine ⟨?_, by tauto⟩
      rintro rfl
      exact hmid.1 (by simpa [List.mem_append] using h)
  · rw [statusHolderKeys, hnew, List.map_append]
    exact hmid.2
  · intro p
    rw [hssub, hnewp]
    have hthis := hInv.statusCount p
    rw [holdp] at hthis
    exact hthis
  · intro c0 hc
    rcases List.mem_append.mp hc with hc1 | hc2
    · exact hInv.guardMintedTruthy c0 (by rw [hdec]; exact List.mem_append_left _ hc1)
    · rcases List.mem_cons.mp hc2 with hc3 | hc4
      · cases hc3
      · exact hInv.guardMintedTruthy c0
          (by rw [hdec]
              exact List.mem_append_right _ (List.mem_cons_of_mem _ hc4))

/-- A task that has not yet run any segment. -/
def taskAtEntry : EngineTask → Bool
  | .mint _ .entry => true
  | .statusUpd _ .entry => true
  | _ => false

/-- The master invariant holds in any initial state whose tasks are
all at their entry point. -/
theorem inv_init (ts : List EngineTask) (d : Nat → Option String)
    (h : ∀ t ∈ ts, taskAtEntry t = true) : Inv (mkInit ts d) := by
  have hmf : mintInFlightIds ts = [] := by
    rw [mintInFlightIds, List.filterMap_eq_nil_iff]
    intro t ht
    have := h t ht
    cases t with
    | mint c ph => cases ph <;> simp_all [taskAtEntry, mintFlightOf, MintPhase.inFlight]
    | statusUpd c ph => simp [mintFlightOf]
  have hmp : mintPastIds ts = [] := by
    rw [mintPastIds, List.filterMap_eq_nil_iff]
    intro t ht
    have := h t ht
    cases t with
    | mint c ph => cases ph <;> simp_all [taskAtEntry, mintPastOf, MintPhase.pastGuards]
    | statusUpd c ph => simp [mintPastOf]
  have hsf : statusInFlightPairs ts = [] := by
    rw [statusInFlightPairs, List.filterMap_eq_nil_iff]
    intro t ht
    have := h t ht
    cases t with
    | mint c ph => simp [statusFlightOf]
    | statusUpd c ph =>
        cases ph <;> simp_all [taskAtEntry, statusFlightOf, StatusPhase.inFlight]
  have hsp : statusPastPairs ts = [] := by
    rw [statusPastPairs, List.filterMap_eq_nil_iff]
    intro t ht
    have := h t ht
    cases t with
    | mint c ph => simp [statusPastOf]
    | statusUpd c ph =>
        cases ph <;> simp_all [taskAtEntry, statusPastOf, StatusPhase.pastGuards]
  refine ⟨?_, List.nodup_nil, ?_, ?_, ?_, List.nodup_nil, ?_, ?_, ?_⟩
  · intro i; simp [mkInit, hmf]
  · simp [mkInit, hmf]
  · intro i; simp [mkInit, hmp, submitIds]
  · intro k; simp [mkInit, statusHolderKeys, hsf]
  · simp [mkInit, statusHolderKeys, hsf]
  · intro p; simp [mkInit, hsp, statusSubmitPairs]
  · intro c hc
    have := h _ hc
    simp [taskAtEntry] at this

/-- One scheduler step preserves the master invariant. -/
theorem inv_step (s : SysState) (hInv : Inv s) (a : Nat × Outcome) :
    Inv (sysStep s a) := by
  obtain ⟨i, o⟩ := a
  cases hget : s.tasks.get? i with
  | none => simp only [sysStep, hget]; exact hInv
  | some t =>
    cases t with
    | mint c ph =>
      simp only [sysStep, hget]
      cases ph with
      | entry =>
        by_cases h1 : c.id ∈ s.procMint
        · obtain ⟨l₁, l₂, hdec, hset, -⟩ :=
            get_set_decomp s.tasks i _ (EngineTask.mint c (.done .guardInFlight)) hget
          simp only [mintStep, if_pos h1]
          rw [hset]
          have h := inv_congr s hInv l₁ l₂ (EngineTask.mint c .entry)
            (EngineTask.mint c (.done .guardInFlight)) [] s.db hdec rfl rfl rfl rfl
            (by intro c0 hc; cases hc) rfl rfl
          simpa using h
        · by_cases h2 : strTruthy c.tx_hash = true
          · obtain ⟨l₁, l₂, hdec, hset, -⟩ :=
              get_set_decomp s.tasks i _ (EngineTask.mint c (.done .guardMinted)) hget
            simp only [mintStep, if_neg h1, if_pos h2]
            rw [hset]
            have h := inv_congr s hInv l₁ l₂ (EngineTask.mint c .entry)
              (EngineTask.mint c (.done .guardMinted)) [] s.db hdec rfl rfl rfl rfl
              (by intro c0 hc; injection hc with hca hcb; rw [← hca]; exact h2) rfl rfl
            simpa using h
          · obtain ⟨l₁, l₂, hdec, hset, -⟩ :=
              get_set_decomp s.tasks i _ (EngineTask.mint c .sent) hget
            simp only [mintStep, if_neg h1, if_neg h2]
            rw [hset]
            exact inv_mint_acquire s hInv l₁ l₂ c hdec h1
      | sent =>
        cases o with
        | ok v =>
          obtain ⟨l₁, l₂, hdec, hset, -⟩ :=
            get_set_decomp s.tasks i _ (EngineTask.mint c .confirmWait) hget
          simp only [mintStep]
          rw [hset]
          have h := inv_congr s hInv l₁ l₂ (EngineTask.mint c .sent)
            (EngineTask.mint c .confirmWait) [] s.db hdec rfl rfl rfl rfl
            (by intro c0 hc; cases hc) rfl rfl
          simpa using h
        | err m =>
          obtain ⟨l₁, l₂, hdec, hset, -⟩ :=
            get_set_decomp s.tasks i _ (EngineTask.mint c (.errWrite m)) hget
          simp only [mintStep]
          rw [hset]
          exact inv_congr s hInv l₁ l₂ (EngineTask.mint c .sent)
            (EngineTask.mint c (.errWrite m)) [.createRejected c.id] s.db hdec
            rfl rfl rfl rfl (by intro c0 hc; cases hc) rfl rfl
      | confirmWait =>
        cases o with
        | ok v =>
          obtain ⟨l₁, l₂, hdec, hset, -⟩ :=
            get_set_decomp s.tasks i _ (EngineTask.mint c (.dbWrite v)) hget
          simp only [mintStep]
          rw [hset]
          exact inv_congr s hInv l₁ l₂ (EngineTask.mint c .confirmWait)
            (EngineTask.mint c (.dbWrite v)) [.createConfirmed c.id] s.db hdec
            rfl rfl rfl rfl (by intro c0 hc; cases hc) rfl rfl
        | err m =>
          obtain ⟨l₁, l₂, hdec, hset, -⟩ :=
            get_set_decomp s.tasks i _ (EngineTask.mint c (.errWrite m)) hget
          simp only [mintStep]
          rw [hset]
          exact inv_congr s hInv l₁ l₂ (EngineTask.mint c .confirmWait)
            (EngineTask.mint c (.errWrite m)) [.createRejected c.id] s.db hdec
            rfl rfl rfl rfl (by intro c0 hc; cases hc) rfl rfl
      | dbWrite v =>
        cases o with
        | ok w =>
          obtain ⟨l₁, l₂, hdec, hset, -⟩ :=
            get_set_decomp s.tasks i _ (EngineTask.mint c (.done .confirmedSaved)) hget
          simp only [mintStep]
          rw [hset]
          exact inv_mint_release s hInv l₁ l₂ c (.dbWrite v) .confirmedSaved
            (dbUpdate s.db c.id (some v)) hdec rfl rfl rfl (by decide)
        | err m =>
          obtain ⟨l₁, l₂, hdec, hset, -⟩ :=
            get_set_decomp s.tasks i _
              (EngineTask.mint c (.done .confirmedSaveFailed)) hget
          simp only [mintStep]
          rw [hset]
          exact inv_mint_release s hInv l₁ l₂ c (.dbWrite v) .confirmedSaveFailed
            s.db hdec rfl rfl rfl (by decide)
      | errWrite m =>
        cases o with
        | ok w =>
          obtain ⟨l₁, l₂, hdec, hset, -⟩ :=
            get_set_decomp s.tasks i _ (EngineTask.mint c (.done .failedMarked)) hget
          simp only [mintStep]
          rw [hset]
          exact inv_mint_release s hInv l₁ l₂ c (.errWrite m) .failedMarked
            (dbUpdate s.db c.id (some (errorMark m))) hdec rfl rfl rfl (by decide)
        | err m2 =>
          obtain ⟨l₁, l₂, hdec, hset, -⟩ :=
            get_set_decomp s.tasks i _
              (EngineTask.mint c (.done .failedMarkFailed)) hget
          simp only [mintStep]
          rw [hset]
          exact inv_mint_release s hInv l₁ l₂ c (.errWrite m) .failedMarkFailed
            s.db hdec rfl rfl rfl (by decide)
      | done r =>
        obtain ⟨l₁, l₂, hdec, hset, -⟩ :=
          get_set_decomp s.tasks i _ (EngineTask.mint c (.done r)) hget
        simp only [mintStep]
        rw [hset, ← hdec]
        exact hInv
    | statusUpd c ph =>
      simp only [sysStep, hget]
      cases ph with
      | entry =>
        by_cases h1 : statusKey c.id (mapStatusToEnum c.status) ∈ s.procStatus
        · obtain ⟨l₁, l₂, hdec, hset, -⟩ :=
            get_set_decomp s.tasks i _
              (EngineTask.statusUpd c (.done .guardInFlight)) hget
          simp only [statusStep, if_pos h1]
          rw [hset]
          have h := inv_congr s hInv l₁ l₂ (EngineTask.statusUpd c .entry)
            (EngineTask.statusUpd c (.done .guardInFlight)) [] s.db hdec rfl rfl rfl rfl
            (by intro c0 hc; cases hc) rfl rfl
          simpa using h
        · obtain ⟨l₁, l₂, hdec, hset, -⟩ :=
            get_set_decomp s.tasks i _ (EngineTask.statusUpd c .sent) hget
          simp only [statusStep, if_neg h1]
          rw [hset]
          exact inv_status_acquire s hInv l₁ l₂ c hdec h1
      | sent =>
        cases o with
        | ok v =>
          obtain ⟨l₁, l₂, hdec, hset, -⟩ :=
            get_set_decomp s.tasks i _ (EngineTask.statusUpd c .confirmWait) hget
          simp only [statusStep]
          rw [hset]
          have h := inv_congr s hInv l₁ l₂ (EngineTask.statusUpd c .sent)
            (EngineTask.statusUpd c .confirmWait) [] s.db hdec rfl rfl rfl rfl
            (by intro c0 hc; cases hc) rfl rfl
          simpa using h
        | err m =>
          obtain ⟨l₁, l₂, hdec, hset, -⟩ :=
            get_set_decomp s.tasks i _ (EngineTask.statusUpd c (.done .failed)) hget
          simp only [statusStep]
          rw [hset]
          exact inv_status_release s hInv l₁ l₂ c .sent .failed
            [.statusRejected c.id (mapStatusToEnum c.status)] hdec rfl rfl rfl rfl rfl
      | confirmWait =>
        cases o with
        | ok v =>
          obtain ⟨l₁, l₂, hdec, hset, -⟩ :=
            get_set_decomp s.tasks i _
              (EngineTask.statusUpd c (.done .confirmed)) hget
          simp only [statusStep]
          rw [hset]
          exact inv_status_release s hInv l₁ l₂ c .confirmWait .confirmed
            [.statusConfirmed c.id (mapStatusToEnum c.status)] hdec rfl rfl rfl rfl rfl
        | err m =>
          obtain ⟨l₁, l₂, hdec, hset, -⟩ :=
            get_set_decomp s.tasks i _ (EngineTask.statusUpd c (.done .failed)) hget
          simp only [statusStep]
          rw [hset]
          exact inv_status_release s hInv l₁ l₂ c .confirmWait .failed
            [.statusRejected c.id (mapStatusToEnum c.status)] hdec rfl rfl rfl rfl rfl
      | done r =>
        obtain ⟨l₁, l₂, hdec, hset, -⟩ :=
          get_set_decomp s.tasks i _ (EngineTask.statusUpd c (.done r)) hget
        simp only [statusStep]
        rw [hset, ← hdec]
        exact hInv

/-- The master invariant holds after any schedule from a state that
satisfies it. -/
theorem inv_exec (s : SysState) (hInv : Inv s) (sch : List (Nat × Outcome)) :
    Inv (sysExec s sch) := by
  induction sch generalizing s with
  | nil => exact hInv
  | cons a sch ih => exact ih _ (inv_step s hInv a)

/-! Shape preservation: a scheduler step never changes which record a
task carries nor whether it is a mint or a status task. -/

/-- Kind and record snapshot of a task. -/
def taskCore : EngineTask → Bool × Complaint
  | .mint c _ => (true, c)
  | .statusUpd c _ => (false, c)

theorem mintStep_tasks (s : SysState) (c : Complaint) (ph : MintPhase)
    (o : Outcome) : (mintStep s c ph o).1.tasks = s.tasks := by
  cases ph <;> cases o <;> simp only [mintStep] <;> split_ifs <;> rfl

theorem statusStep_tasks (s : SysState) (c : Complaint) (ph : StatusPhase)
    (o : Outcome) : (statusStep s c ph o).1.tasks = s.tasks := by
  cases ph <;> cases o <;> simp only [statusStep] <;> split_ifs <;> rfl

theorem sysStep_core (s : SysState) (a : Nat × Outcome) (j : Nat) :
    ((sysStep s a).tasks.get? j).map taskCore = (s.tasks.get? j).map taskCore := by
  cases hget : s.tasks.get? a.1 with
  | none => simp only [sysStep, hget]
  | some t =>
    cases t with
    | mint c ph =>
      simp only [sysStep, hget, mintStep_tasks]
      by_cases hij : a.1 = j
      · subst hij
        have hlt : a.1 < s.tasks.length := (List.get?_eq_some.mp hget).1
        rw [List.get?_set_eq_of_lt _ hlt, hget]
        rfl
      · rw [List.get?_set_ne _ _ hij]
    | statusUpd c ph =>
      simp only [sysStep, hget, statusStep_tasks]
      by_cases hij : a.1 = j
      · subst hij
        have hlt : a.1 < s.tasks.length := (List.get?_eq_some.mp hget).1
        rw [List.get?_set_eq_of_lt _ hlt, hget]
        rfl
      · rw [List.get?_set_ne _ _ hij]

theorem sysExec_core (s : SysState) (sch : List (Nat × Outcome)) (j : Nat) :
    ((sysExec s sch).tasks.get? j).map taskCore = (s.tasks.get? j).map taskCore := by
  induction sch generalizing s with
  | nil => rfl
  | cons a sch ih => rw [sysExec, List.foldl_cons, ← sysExec, ih, sysStep_core]

theorem exec_all_core (Q : Bool × Complaint → Prop) (s : SysState)
    (sch : List (Nat × Outcome)) (h : ∀ t ∈ s.tasks, Q (taskCore t)) :
    ∀ t ∈ (sysExec s sch).tasks, Q (taskCore t) := by
  intro t ht
  obtain ⟨j, hj⟩ := List.mem_iff_get?.mp ht
  have hc := sysExec_core s sch j
  rw [hj] at hc
  cases hs : s.tasks.get? j with
  | none => rw [hs] at hc; exact absurd hc (by simp)
  | some t0 =>
    rw [hs] at hc
    have hc2 : taskCore t = taskCore t0 := Option.some_injective _ hc
    have := h t0 (List.get?_mem hs)
    rw [hc2]
    exact this

/-- Without any completed post-guard mint invocation, the ids past
their guards are exactly the in-flight ids. -/
theorem mintPast_eq_flight (ts : List EngineTask)
    (h : ∀ t ∈ ts, mintAcquiredDone t = false) :
    mintPastIds ts = mintInFlightIds ts := by
  induction ts with
  | nil => rfl
  | cons t ts ih =>
    have ht := h t (List.mem_cons_self t _)
    have hrest := ih fun t2 ht2 => h t2 (List.mem_cons_of_mem _ ht2)
    unfold mintPastIds mintInFlightIds at hrest ⊢
    rw [List.filterMap_cons, List.filterMap_cons]
    have : mintPastOf t = mintFlightOf t := by
      cases t with
      | mint c ph =>
        cases ph with
        | entry => rfl
        | sent => rfl
        | confirmWait => rfl
        | dbWrite h2 => rfl
        | errWrite m2 => rfl
        | done r =>
          cases r with
          | guardInFlight => rfl
          | guardMinted => rfl
          | confirmedSaved => simp [mintAcquiredDone] at ht
          | confirmedSaveFailed => simp [mintAcquiredDone] at ht
          | failedMarked => simp [mintAcquiredDone] at ht
          | failedMarkFailed => simp [mintAcquiredDone] at ht
      | statusUpd c ph => rfl
    rw [this, hrest]

/-- Without any completed post-guard status invocation, the pairs past
their guard are exactly the in-flight pairs. -/
theorem statusPast_eq_flight (ts : List EngineTask)
    (h : ∀ t ∈ ts, statusAcquiredDone t = false) :
    statusPastPairs ts = statusInFlightPairs ts := by
  induction ts with
  | nil => rfl
  | cons t ts ih =>
    have ht := h t (List.mem_cons_self t _)
    have hrest := ih fun t2 ht2 => h t2 (List.mem_cons_of_mem _ ht2)
    unfold statusPastPairs statusInFlightPairs at hrest ⊢
    rw [List.filterMap_cons, List.filterMap_cons]
    have : statusPastOf t = statusFlightOf t := by
      cases t with
      | statusUpd c ph =>
        cases ph with
        | entry => rfl
        | sent => rfl
        | confirmWait => rfl
        | done r =>
          cases r with
          | guardInFlight => rfl
          | confirmed => simp [statusAcquiredDone] at ht
          | failed => simp [statusAcquiredDone] at ht
      | mint c ph => rfl
    rw [this, hrest]

/-- Entry segment of a mint invocation whose snapshot carries a truthy
tx_hash: both guard orders lead to an immediate return with no
submission, no registry change, no table write. -/
theorem mint_entry_truthy_noop (s : SysState) (i : Nat) (o : Outcome)
    (c : Complaint) (hget : s.tasks.get? i = some (.mint c .entry))
    (htr : strTruthy c.tx_hash = true) :
    ∃ r, (r = MintDone.guardInFlight ∨ r = MintDone.guardMinted) ∧
      sysStep s (i, o) = { s with tasks := s.tasks.set i (.mint c (.done r)) } := by
  by_cases h1 : c.id ∈ s.procMint
  · exact ⟨.guardInFlight, Or.inl rfl, by simp only [sysStep, hget, mintStep, if_pos h1]⟩
  · exact ⟨.guardMinted, Or.inr rfl,
      by simp only [sysStep, hget, mintStep, if_neg h1, if_pos htr]⟩

/-- The error marker is never the empty string, hence truthy. -/
theorem errorMark_truthy (m : String) : strTruthy (some (errorMark m)) = true := by
  have hne : errorMark m ≠ "" := by
    intro h
    have h2 := congrArg String.length h
    rw [errorMark, String.length_append] at h2
    have h3 : ("ERROR: " : String).length = 7 := by decide
    have h4 : ("" : String).length = 0 := by decide
    omega
  simpa [strTruthy] using hne

/-! Auxiliary results used to settle the claims. -/

/-- From the kind and snapshot of a task being a mint on c, recover its
shape. -/
theorem core_mint_of (c : Complaint) (t : EngineTask)
    (h : taskCore t = (true, c)) : ∃ ph, t = EngineTask.mint c ph := by
  cases t with
  | mint c0 ph =>
    have h2 := congrArg Prod.snd h
    simp only [taskCore] at h2
    exact ⟨ph, by rw [h2]⟩
  | statusUpd c0 ph => simp [taskCore] at h

/-- Race analysis of concurrent mint invocations on one record with no
receipt: while none of them has completed past its guards, at most one
create has been submitted, and every completed invocation returned
through the in-flight guard. -/
theorem mint_race_aux (c : Complaint) (s' : SysState) (hInv : Inv s')
    (hcore : ∀ t ∈ s'.tasks, ∃ ph, t = EngineTask.mint c ph)
    (hnull : c.tx_hash = none)
    (hlive : ∀ t ∈ s'.tasks, mintAcquiredDone t = false) :
    (submitIds s'.events).count c.id ≤ 1 ∧
    (∀ t ∈ s'.tasks, taskDone t = true →
        t = EngineTask.mint c (.done .guardInFlight)) := by
  constructor
  · rw [hInv.mintCount, mintPast_eq_flight _ hlive]
    exact List.nodup_iff_count_le_one.mp hInv.mintNodupHold c.id
  · intro t ht hd
    obtain ⟨ph, rfl⟩ := hcore t ht
    cases ph with
    | done r =>
      cases r with
      | guardInFlight => rfl
      | guardMinted =>
        have := hInv.guardMintedTruthy c ht
        rw [hnull] at this
        simp [strTruthy] at this
      | confirmedSaved => have := hlive _ ht; simp [mintAcquiredDone] at this
      | confirmedSaveFailed => have := hlive _ ht; simp [mintAcquiredDone] at this
      | failedMarked => have := hlive _ ht; simp [mintAcquiredDone] at this
      | failedMarkFailed => have := hlive _ ht; simp [mintAcquiredDone] at this
    | entry => simp [taskDone] at hd
    | sent => simp [taskDone] at hd
    | confirmWait => simp [taskDone] at hd
    | dbWrite h2 => simp [taskDone] at hd
    | errWrite m2 => simp [taskDone] at hd

/-- A list with no duplicates counts every element at most once, for
any lawful boolean equality. -/
theorem count_le_one_of_nodup {α : Type} [BEq α] [LawfulBEq α] {l : List α}
    (h : l.Nodup) (a : α) : l.count a ≤ 1 := by
  induction l with
  | nil => simp
  | cons b l ih =>
    rw [List.count_cons]
    rcases List.nodup_cons.mp h with ⟨hb, hl⟩
    by_cases hab : b = a
    · subst hab
      have hz : l.count b = 0 := List.count_eq_zero.mpr hb
      simp [hz]
    · have hf : (b == a) = false := by simpa using hab
      simp [hf, ih hl]

/-- Race analysis of concurrent status invocations: while none has
completed past its guard, at most one status update has been submitted
per (id, code) pair. -/
theorem status_race_aux (p : Nat × Nat) (s' : SysState) (hInv : Inv s')
    (hlive : ∀ t ∈ s'.tasks, statusAcquiredDone t = false) :
    (statusSubmitPairs s'.events).count p ≤ 1 := by
  rw [hInv.statusCount, statusPast_eq_flight _ hlive]
  have hnd : (statusInFlightPairs s'.tasks).Nodup := by
    have := hInv.statusNodupHold
    rw [statusHolderKeys] at this
    exact this.of_map _
  exact count_le_one_of_nodup hnd p

/-- Concrete fixtures used by the witnesses and counterexamples. -/
def cw1 : Complaint := ⟨1, "pending", none, none, none, none⟩

def cw2 : Complaint := ⟨2, "pending", none, none, none, none⟩

def cwMinted : Complaint := ⟨5, "pending", none, none, none, some "0xabc"⟩

def cwSame : Complaint := ⟨5, "pending", none, none, none, none⟩

def cwEmpty : Complaint := ⟨9, "pending", none, none, none, some ""⟩

def cwErr : Complaint := ⟨3, "pending", none, none, none, some (errorMark "boom")⟩

def cwRes : Complaint := ⟨7, "resolved", none, none, none, some "0xdef"⟩

def cwResUp : Complaint := ⟨7, "RESOLVED", none, none, none, some "0xdef"⟩

def cwVer : Complaint := ⟨7, "verified", none, none, none, some "0xdef"⟩

def dbNone : Nat → Option String := fun _ => none

/-! Claim theorems. -/

/-- C6: the status mapper is a pure total function on strings, case
insensitive (its value depends only on the lowercased input), mapping
pending to 0, resolved to 1, verified to 2, and every other input,
including the empty string and unknown values, to the default 0. -/
theorem statusMapper_spec :
    (∀ s t : String, jsToLower s = jsToLower t →
        mapStatusToEnum s = mapStatusToEnum t) ∧
    (∀ s : String, jsToLower s ≠ "pending" → jsToLower s ≠ "resolved" →
        jsToLower s ≠ "verified" → mapStatusToEnum s = 0) ∧
    (mapStatusToEnum "pending" = 0 ∧ mapStatusToEnum "PENDING" = 0 ∧
     mapStatusToEnum "resolved" = 1 ∧ mapStatusToEnum "Resolved" = 1 ∧
     mapStatusToEnum "verified" = 2 ∧ mapStatusToEnum "VERIFIED" = 2 ∧
     mapStatusToEnum "" = 0 ∧ mapStatusToEnum "bogus" = 0) := by
  refine ⟨?_, ?_, by decide⟩
  · intro s t h
    simp only [mapStatusToEnum]
    rw [h]
  · intro s h1 h2 h3
    simp only [mapStatusToEnum]
    rw [if_neg h1, if_neg h2, if_neg h3]

theorem statusMapper_spec_witness :
    mapStatusToEnum "PenDinG" = mapStatusToEnum "pending" ∧
    mapStatusToEnum "xyz" = 0 :=
  ⟨statusMapper_spec.1 "PenDinG" "pending" (by decide),
   statusMapper_spec.2.1 "xyz" (by decide) (by decide) (by decide)⟩

/-- C3 counterexample: the claim states that the receipt field tx_hash
is never overwritten with free-text error content.  In this concrete
run a mint submission is rejected with message boom and the engine
then writes the free-text marker ERROR: boom into the tx_hash column
of the record (server.js lines 147 to 153). -/
theorem txhash_overwritten_with_error_text :
    (sysExec (mkInit [.mint cw1 .entry] dbNone)
        [(0, .ok "t"), (0, .err "boom"), (0, .ok "")]).db 1
      = some "ERROR: boom" := by decide

/-- C3 amended: on a mint submission failure the engine writes the
string ERROR: followed by the first 200 characters of the error
message into the tx_hash field itself; the marker is non-empty, hence
truthy and distinguishable from null, but it reuses the receipt field
to carry the error text. -/
theorem mint_failure_marker (s : SysState) (i : Nat) (c : Complaint) (m v : String)
    (hget : s.tasks.get? i = some (.mint c (.errWrite m))) :
    (sysStep s (i, .ok v)).db c.id = some (errorMark m) ∧
    errorMark m = "ERROR: " ++ jsSubstr m 200 ∧
    strTruthy (some (errorMark m)) = true := by
  refine ⟨?_, rfl, errorMark_truthy m⟩
  simp only [sysStep, hget, mintStep]
  simp [dbUpdate]

theorem mint_failure_marker_witness :
    (sysStep (mkInit [.mint cw1 (.errWrite "boom")] dbNone) (0, .ok "")).db cw1.id
      = some (errorMark "boom") ∧
    errorMark "boom" = "ERROR: " ++ jsSubstr "boom" 200 ∧
    strTruthy (some (errorMark "boom")) = true :=
  mint_failure_marker (mkInit [.mint cw1 (.errWrite "boom")] dbNone) 0 cw1 "boom" "" rfl

/-- C4 counterexample: the claim quantifies over every record whose
tx_hash is non-null.  A record whose tx_hash is the empty string is
non-null, yet the JavaScript truthiness test at server.js line 87 is
false for it, so mint does not return: it submits a create to the
ledger instead of being a no-op. -/
theorem mint_empty_receipt_not_noop :
    cwEmpty.tx_hash ≠ none ∧
    submitIds (sysExec (mkInit [.mint cwEmpty .entry] dbNone)
        [(0, .ok "")]).events = [9] := by decide

/-- C4 amended: for every record whose tx_hash is non-null and
non-empty, a mint call returns immediately through one of the two
guards: no ledger submission event, no registry change, no table
write, and the invocation ends in a guard terminal state. -/
theorem mint_idempotent_on_receipt (s : SysState) (i : Nat) (o : Outcome)
    (c : Complaint) (h0 : String)
    (hget : s.tasks.get? i = some (.mint c .entry))
    (hr : c.tx_hash = some h0) (hne : h0 ≠ "") :
    (sysStep s (i, o)).events = s.events ∧
    (sysStep s (i, o)).procMint = s.procMint ∧
    (sysStep s (i, o)).procStatus = s.procStatus ∧
    (sysStep s (i, o)).db = s.db ∧
    ∃ r, (r = MintDone.guardInFlight ∨ r = MintDone.guardMinted) ∧
      (sysStep s (i, o)).tasks = s.tasks.set i (.mint c (.done r)) := by
  have htr : strTruthy c.tx_hash = true := by
    rw [hr]; simpa [strTruthy] using hne
  obtain ⟨r, hror, heq⟩ := mint_entry_truthy_noop s i o c hget htr
  rw [heq]
  exact ⟨rfl, rfl, rfl, rfl, r, hror, rfl⟩

theorem mint_idempotent_on_receipt_witness :
    (sysStep (mkInit [.mint cwMinted .entry] dbNone) (0, .ok "")).events
      = (mkInit [.mint cwMinted .entry] dbNone).events ∧
    (sysStep (mkInit [.mint cwMinted .entry] dbNone) (0, .ok "")).procMint
      = (mkInit [.mint cwMinted .entry] dbNone).procMint ∧
    (sysStep (mkInit [.mint cwMinted .entry] dbNone) (0, .ok "")).procStatus
      = (mkInit [.mint cwMinted .entry] dbNone).procStatus ∧
    (sysStep (mkInit [.mint cwMinted .entry] dbNone) (0, .ok "")).db
      = (mkInit [.mint cwMinted .entry] dbNone).db ∧
    ∃ r, (r = MintDone.guardInFlight ∨ r = MintDone.guardMinted) ∧
      (sysStep (mkInit [.mint cwMinted .entry] dbNone) (0, .ok "")).tasks
        = (mkInit [.mint cwMinted .entry] dbNone).tasks.set 0 (.mint cwMinted (.done r)) :=
  mint_idempotent_on_receipt (mkInit [.mint cwMinted .entry] dbNone) 0 (.ok "")
    cwMinted "0xabc" rfl rfl (by decide)

/-- C8 counterexample: the claim states that mint checks the receipt
guard first and the in-flight guard second.  In this run, record id 5
is already in the in-flight registry (acquired by a first invocation)
and the second snapshot carries a truthy tx_hash; the second
invocation returns through the in-flight guard, not the already-minted
guard, because server.js lines 79 to 92 test the registry before the
receipt. -/
theorem mint_guard_order_counterexample :
    strTruthy cwMinted.tx_hash = true ∧
    (sysExec (mkInit [.mint cwSame .entry, .mint cwMinted .entry] dbNone)
        [(0, .ok ""), (1, .ok "")]).tasks.get? 1
      = some (.mint cwMinted (.done .guardInFlight)) := by decide

/-- C8 amended: mint checks its preconditions before any ledger call,
but in the order in-flight guard first, already-minted guard second;
only when both pass does it insert the id into the registry, build the
payload and submit, all in one atomic segment. -/
theorem mint_precondition_order (s : SysState) (i : Nat) (o : Outcome)
    (c : Complaint) (hget : s.tasks.get? i = some (.mint c .entry)) :
    (c.id ∈ s.procMint →
      sysStep s (i, o)
        = { s with tasks := s.tasks.set i (.mint c (.done .guardInFlight)) }) ∧
    (c.id ∉ s.procMint → strTruthy c.tx_hash = true →
      sysStep s (i, o)
        = { s with tasks := s.tasks.set i (.mint c (.done .guardMinted)) }) ∧
    (c.id ∉ s.procMint → strTruthy c.tx_hash = false →
      sysStep s (i, o)
        = { s with procMint := c.id :: s.procMint,
                   events := s.events ++ [.submitCreate c.id (cityOf c) (categoryOf c)],
                   tasks := s.tasks.set i (.mint c .sent) }) := by
  refine ⟨fun h1 => ?_, fun h1 h2 => ?_, fun h1 h2 => ?_⟩
  · simp only [sysStep, hget, mintStep, if_pos h1]
  · simp only [sysStep, hget, mintStep, if_neg h1, if_pos h2]
  · have h2n : ¬ (strTruthy c.tx_hash = true) := by
      rw [h2]; exact Bool.false_ne_true
    simp only [sysStep, hget, mintStep, if_neg h1, if_neg h2n]

theorem mint_precondition_order_witness :
    sysStep (mkInit [.mint cwMinted .entry] dbNone) (0, .ok "")
      = { mkInit [.mint cwMinted .entry] dbNone with
          tasks := (mkInit [.mint cwMinted .entry] dbNone).tasks.set 0
            (.mint cwMinted (.done .guardMinted)) } :=
  (mint_precondition_order (mkInit [.mint cwMinted .entry] dbNone) 0 (.ok "")
    cwMinted rfl).2.1 (by decide) (by decide)

/-- C10: once a failed mint has written the error marker into tx_hash,
the record is permanently excluded from every engine mint path: the
backlog query, which selects only records with null tx_hash, never
returns it, and a direct mint call on a snapshot carrying the marker
returns through a guard with no submission and no state change, so the
engine never retries a failed mint. -/
theorem failed_mint_never_retried (m : String) (c : Complaint)
    (hmark : c.tx_hash = some (errorMark m)) :
    (∀ db, c ∉ backlogFetch db) ∧
    (∀ s i o, s.tasks.get? i = some (.mint c .entry) →
      ∃ r, (r = MintDone.guardInFlight ∨ r = MintDone.guardMinted) ∧
        sysStep s (i, o) = { s with tasks := s.tasks.set i (.mint c (.done r)) }) := by
  constructor
  · intro db hc
    have := backlogFetch_null db c hc
    rw [hmark] at this
    cases this
  · intro s i o hget
    exact mint_entry_truthy_noop s i o c hget (by rw [hmark]; exact errorMark_truthy m)

theorem failed_mint_never_retried_witness :
    (cwErr ∉ backlogFetch [cwErr]) ∧
    (∃ r, (r = MintDone.guardInFlight ∨ r = MintDone.guardMinted) ∧
      sysStep (mkInit [.mint cwErr .entry] dbNone) (0, .ok "")
        = { mkInit [.mint cwErr .entry] dbNone with
            tasks := (mkInit [.mint cwErr .entry] dbNone).tasks.set 0
              (.mint cwErr (.done r)) }) :=
  ⟨(failed_mint_never_retried "boom" cwErr rfl).1 [cwErr],
   (failed_mint_never_retried "boom" cwErr rfl).2
     (mkInit [.mint cwErr .entry] dbNone) 0 (.ok "") rfl⟩

/-- C9: both coordinators release their in-flight key on every
terminal outcome: after any schedule, the mint registry holds exactly
the ids of the mint invocations still in flight and the status
registry holds exactly the keys of the status invocations still in
flight, so the key of any completed invocation is gone; in particular
when every invocation has reached a terminal outcome both registries
are empty. -/
theorem inflight_keys_released (ts : List EngineTask) (d : Nat → Option String)
    (sch : List (Nat × Outcome)) (hts : ∀ t ∈ ts, taskAtEntry t = true) :
    (∀ i, i ∈ (sysExec (mkInit ts d) sch).procMint ↔
        i ∈ mintInFlightIds (sysExec (mkInit ts d) sch).tasks) ∧
    (∀ k, k ∈ (sysExec (mkInit ts d) sch).procStatus ↔
        k ∈ statusHolderKeys (sysExec (mkInit ts d) sch).tasks) ∧
    ((∀ t ∈ (sysExec (mkInit ts d) sch).tasks, taskDone t = true) →
      (sysExec (mkInit ts d) sch).procMint = [] ∧
      (sysExec (mkInit ts d) sch).procStatus = []) := by
  have hInv := inv_exec _ (inv_init ts d hts) sch
  refine ⟨hInv.mintMem, hInv.statusMem, fun hdone => ⟨?_, ?_⟩⟩
  · rw [List.eq_nil_iff_forall_not_mem]
    intro i hi
    obtain ⟨t, ht, hf⟩ := List.mem_filterMap.mp ((hInv.mintMem i).mp hi)
    have hd := hdone t ht
    cases t with
    | mint c ph => cases ph <;> simp_all [taskDone, mintFlightOf, MintPhase.inFlight]
    | statusUpd c ph => simp [mintFlightOf] at hf
  · rw [List.eq_nil_iff_forall_not_mem]
    intro k hk
    have hmem := (hInv.statusMem k).mp hk
    rw [statusHolderKeys] at hmem
    obtain ⟨p, hp, -⟩ := List.mem_map.mp hmem
    obtain ⟨t, ht, hf⟩ := List.mem_filterMap.mp hp
    have hd := hdone t ht
    cases t with
    | mint c ph => simp [statusFlightOf] at hf
    | statusUpd c ph =>
        cases ph <;> simp_all [taskDone, statusFlightOf, StatusPhase.inFlight]

theorem inflight_keys_released_witness :
    (∀ i, i ∈ (sysExec (mkInit [.mint cw1 .entry, .statusUpd cwRes .entry] dbNone)
          [(0, .ok "t"), (1, .ok "u"), (0, .ok "h"), (1, .ok "v"), (0, .ok "")]).procMint ↔
        i ∈ mintInFlightIds (sysExec (mkInit [.mint cw1 .entry, .statusUpd cwRes .entry] dbNone)
          [(0, .ok "t"), (1, .ok "u"), (0, .ok "h"), (1, .ok "v"), (0, .ok "")]).tasks) ∧
    (∀ k, k ∈ (sysExec (mkInit [.mint cw1 .entry, .statusUpd cwRes .entry] dbNone)
          [(0, .ok "t"), (1, .ok "u"), (0, .ok "h"), (1, .ok "v"), (0, .ok "")]).procStatus ↔
        k ∈ statusHolderKeys (sysExec (mkInit [.mint cw1 .entry, .statusUpd cwRes .entry] dbNone)
          [(0, .ok "t"), (1, .ok "u"), (0, .ok "h"), (1, .ok "v"), (0, .ok "")]).tasks) ∧
    ((∀ t ∈ (sysExec (mkInit [.mint cw1 .entry, .statusUpd cwRes .entry] dbNone)
          [(0, .ok "t"), (1, .ok "u"), (0, .ok "h"), (1, .ok "v"), (0, .ok "")]).tasks,
        taskDone t = true) →
      (sysExec (mkInit [.mint cw1 .entry, .statusUpd cwRes .entry] dbNone)
          [(0, .ok "t"), (1, .ok "u"), (0, .ok "h"), (1, .ok "v"), (0, .ok "")]).procMint = [] ∧
      (sysExec (mkInit [.mint cw1 .entry, .statusUpd cwRes .entry] dbNone)
          [(0, .ok "t"), (1, .ok "u"), (0, .ok "h"), (1, .ok "v"), (0, .ok "")]).procStatus = []) :=
  inflight_keys_released [.mint cw1 .entry, .statusUpd cwRes .entry] dbNone
    [(0, .ok "t"), (1, .ok "u"), (0, .ok "h"), (1, .ok "v"), (0, .ok "")] (by decide)

/-- C2: for a record with null receipt, any interleaving of any number
of concurrent mint invocations yields at most one create submission as
long as none of them has completed past its guards (the concurrency
window), and every invocation that returned did so through the
in-flight guard without a ledger call; the guard check and the
registry insertion are one atomic segment. -/
theorem mint_concurrent_single_submit (c : Complaint) (n : Nat)
    (d : Nat → Option String) (sch : List (Nat × Outcome))
    (hnull : c.tx_hash = none)
    (hlive : ∀ t ∈ (sysExec (mkInit (List.replicate n (.mint c .entry)) d) sch).tasks,
        mintAcquiredDone t = false) :
    (submitIds (sysExec (mkInit (List.replicate n (.mint c .entry)) d) sch).events).count c.id ≤ 1 ∧
    (∀ t ∈ (sysExec (mkInit (List.replicate n (.mint c .entry)) d) sch).tasks,
        taskDone t = true → t = EngineTask.mint c (.done .guardInFlight)) := by
  have hInv := inv_exec _ (inv_init (List.replicate n (.mint c .entry)) d
    (fun t ht => by rw [List.eq_of_mem_replicate ht]; rfl)) sch
  have hcoreInit : ∀ t ∈ (mkInit (List.replicate n (.mint c .entry)) d).tasks,
      (fun p : Bool × Complaint => p = (true, c)) (taskCore t) := by
    intro t ht
    rw [List.eq_of_mem_replicate ht]
    rfl
  have hcore := exec_all_core (fun p => p = (true, c)) _ sch hcoreInit
  exact mint_race_aux c _ hInv (fun t ht => core_mint_of c t (hcore t ht)) hnull hlive

theorem mint_concurrent_single_submit_witness :
    (submitIds (sysExec (mkInit (List.replicate 2 (.mint cw1 .entry)) dbNone)
        [(0, .ok "t"), (1, .ok "u")]).events).count cw1.id ≤ 1 ∧
    (∀ t ∈ (sysExec (mkInit (List.replicate 2 (.mint cw1 .entry)) dbNone)
        [(0, .ok "t"), (1, .ok "u")]).tasks,
        taskDone t = true → t = EngineTask.mint cw1 (.done .guardInFlight)) :=
  mint_concurrent_single_submit cw1 2 dbNone [(0, .ok "t"), (1, .ok "u")] rfl (by decide)

/-- Entry segment of a status invocation whose key differs from the
single held key: the guard passes and the update is submitted. -/
theorem status_other_code_submits (s : SysState) (i : Nat) (o : Outcome)
    (c : Complaint) (e0 : Nat) (he0 : e0 ≤ 2)
    (hget : s.tasks.get? i = some (.statusUpd c .entry))
    (hreg : s.procStatus = [statusKey c.id e0])
    (hne : mapStatusToEnum c.status ≠ e0) :
    statusSubmitPairs (sysStep s (i, o)).events
      = statusSubmitPairs s.events ++ [(c.id, mapStatusToEnum c.status)] := by
  have hnk : statusKey c.id (mapStatusToEnum c.status) ∉ s.procStatus := by
    rw [hreg]
    simp only [List.mem_singleton]
    exact statusKey_ne_of_code_ne (mapStatusToEnum_le_two _) he0 hne
  simp only [sysStep, hget, statusStep, if_neg hnk]
  unfold statusSubmitPairs
  rw [List.filterMap_append]
  rfl

/-- C7: the status-sync in-flight key is the pair of record id and
target status code: over any interleaving in which no status
invocation has completed past its guard, at most one status update per
(id, code) pair is submitted, so repeated notifications resolving to
the same target code collapse; and a status invocation for the same id
whose target code differs from the held key passes the guard and is
submitted independently. -/
theorem status_key_pair_semantics :
    (∀ (ts : List EngineTask) (d : Nat → Option String)
       (sch : List (Nat × Outcome)) (p : Nat × Nat),
       (∀ t ∈ ts, taskAtEntry t = true) →
       (∀ t ∈ (sysExec (mkInit ts d) sch).tasks, statusAcquiredDone t = false) →
       (statusSubmitPairs (sysExec (mkInit ts d) sch).events).count p ≤ 1) ∧
    (∀ (s : SysState) (i : Nat) (o : Outcome) (c : Complaint) (e0 : Nat),
       e0 ≤ 2 → s.tasks.get? i = some (.statusUpd c .entry) →
       s.procStatus = [statusKey c.id e0] → mapStatusToEnum c.status ≠ e0 →
       statusSubmitPairs (sysStep s (i, o)).events
         = statusSubmitPairs s.events ++ [(c.id, mapStatusToEnum c.status)]) := by
  constructor
  · intro ts d sch p hts hlive
    exact status_race_aux p _ (inv_exec _ (inv_init ts d hts) sch) hlive
  · intro s i o c e0 he0 hget hreg hne
    exact status_other_code_submits s i o c e0 he0 hget hreg hne

theorem status_key_pair_semantics_witness :
    ((statusSubmitPairs (sysExec
        (mkInit [.statusUpd cwRes .entry, .statusUpd cwResUp .entry] dbNone)
        [(0, .ok "t"), (1, .ok "u")]).events).count (7, 1) ≤ 1) ∧
    (statusSubmitPairs (sysStep
        { procMint := [], procStatus := [statusKey cwVer.id 1], db := dbNone,
          tasks := [.statusUpd cwVer .entry], events := [] } (0, .ok "")).events
      = statusSubmitPairs
          ({ procMint := [], procStatus := [statusKey cwVer.id 1], db := dbNone,
             tasks := [.statusUpd cwVer .entry], events := [] } : SysState).events
        ++ [(cwVer.id, mapStatusToEnum cwVer.status)]) :=
  ⟨status_key_pair_semantics.1 [.statusUpd cwRes .entry, .statusUpd cwResUp .entry]
      dbNone [(0, .ok "t"), (1, .ok "u")] (7, 1) (by decide) (by decide),
   status_key_pair_semantics.2
      { procMint := [], procStatus := [statusKey cwVer.id 1], db := dbNone,
        tasks := [.statusUpd cwVer .entry], events := [] } 0 (.ok "") cwVer 1
      (by decide) rfl rfl (by decide)⟩

/-- C1 counterexample: the claim states that every ledger-mutating
call passes through one serializer that executes submissions one at a
time, each reaching a terminal outcome before the next is admitted, or
assigns explicit sequence numbers.  In this concrete run two live mint
invocations for different records both submit (the insert handler at
server.js lines 238 to 248 calls mintComplaintToBlockchain directly),
and after both submissions no terminal outcome has occurred: two
submissions are simultaneously in flight, and nothing in the code
assigns sequence numbers. -/
theorem no_serializer_counterexample :
    submitIds (sysExec (mkInit [.mint cw1 .entry, .mint cw2 .entry] dbNone)
        [(0, .ok "t1"), (1, .ok "t2")]).events = [1, 2] ∧
    createTerminals (sysExec (mkInit [.mint cw1 .entry, .mint cw2 .entry] dbNone)
        [(0, .ok "t1"), (1, .ok "t2")]).events = [] ∧
    mintInFlightIds (sysExec (mkInit [.mint cw1 .entry, .mint cw2 .entry] dbNone)
        [(0, .ok "t1"), (1, .ok "t2")]).tasks = [1, 2] := by decide

/-! Helper lemmas for the startup model. -/

theorem set_concat {α : Type} (l : List α) (a b : α) :
    (l ++ [a]).set l.length b = l ++ [b] := by
  induction l with
  | nil => rfl
  | cons x l ih => simp [List.set, ih]

theorem sysStep_none (s : SysState) (a : Nat × Outcome)
    (hget : s.tasks.get? a.1 = none) : sysStep s a = s := by
  simp only [sysStep, hget]

theorem sysStep_length (s : SysState) (a : Nat × Outcome) :
    (sysStep s a).tasks.length = s.tasks.length := by
  cases hget : s.tasks.get? a.1 with
  | none => rw [sysStep_none s a hget]
  | some t =>
    cases t with
    | mint c ph =>
        simp only [sysStep, hget, mintStep_tasks]
        simp [List.length_set]
    | statusUpd c ph =>
        simp only [sysStep, hget, statusStep_tasks]
        simp [List.length_set]

theorem sysStep_get_ne (s : SysState) (i j : Nat) (o : Outcome) (hij : i ≠ j) :
    (sysStep s (i, o)).tasks.get? j = s.tasks.get? j := by
  cases hget : s.tasks.get? i with
  | none => rw [sysStep_none s (i, o) hget]
  | some t =>
    cases t with
    | mint c ph =>
      simp only [sysStep, hget, mintStep_tasks]
      exact List.get?_set_ne _ _ hij
    | statusUpd c ph =>
      simp only [sysStep, hget, statusStep_tasks]
      exact List.get?_set_ne _ _ hij

theorem sysStep_get_mint (s : SysState) (i : Nat) (o : Outcome) (c : Complaint)
    (ph : MintPhase) (hget : s.tasks.get? i = some (.mint c ph)) :
    (sysStep s (i, o)).tasks.get? i
      = some (.mint c (mintStep s c ph o).2) := by
  have hlt : i < s.tasks.length := (List.get?_eq_some.mp hget).1
  simp only [sysStep, hget, mintStep_tasks]
  exact List.get?_set_eq_of_lt _ hlt

theorem mintStep_phase_ne_entry (s : SysState) (c : Complaint) (ph : MintPhase)
    (o : Outcome) : (mintStep s c ph o).2 ≠ MintPhase.entry := by
  cases ph <;> cases o <;> simp only [mintStep] <;>
    first
    | (split_ifs <;> simp)
    | simp

theorem mintStep_done (s : SysState) (c : Complaint) (r : MintDone) (o : Outcome) :
    mintStep s c (.done r) o = (s, .done r) := rfl

theorem mintStep_submitIds (s : SysState) (c : Complaint) (ph : MintPhase)
    (o : Outcome) (h : ph ≠ MintPhase.entry) :
    submitIds (mintStep s c ph o).1.events = submitIds s.events := by
  cases ph with
  | entry => exact absurd rfl h
  | sent =>
      cases o <;> simp [mintStep, submitIds, List.filterMap_append]
  | confirmWait =>
      cases o <;> simp [mintStep, submitIds, List.filterMap_append]
  | dbWrite v => cases o <;> rfl
  | errWrite m => cases o <;> rfl
  | done r => rfl

theorem mintStep_subscribe (s : SysState) (c : Complaint) (ph : MintPhase)
    (o : Outcome) :
    (Ev.subscribeActive ∈ (mintStep s c ph o).1.events)
      ↔ Ev.subscribeActive ∈ s.events := by
  cases ph with
  | entry =>
      simp only [mintStep]
      split_ifs <;> simp
  | sent => cases o <;> simp [mintStep]
  | confirmWait => cases o <;> simp [mintStep]
  | dbWrite v => cases o <;> rfl
  | errWrite m => cases o <;> rfl
  | done r => rfl

theorem taskDone_flight_none (t : EngineTask) (h : taskDone t = true) :
    mintFlightOf t = none := by
  cases t with
  | mint c ph => cases ph <;> simp_all [taskDone, mintFlightOf, MintPhase.inFlight]
  | statusUpd c ph => rfl

theorem mintFlight_nil_of_done (ts : List EngineTask)
    (h : ∀ t ∈ ts, taskDone t = true) : mintInFlightIds ts = [] := by
  rw [mintInFlightIds, List.filterMap_eq_nil_iff]
  exact fun t ht => taskDone_flight_none t (h t ht)

theorem procMint_nil_of_done (s : SysState) (hInv : Inv s)
    (h : ∀ t ∈ s.tasks, taskDone t = true) : s.procMint = [] := by
  rw [List.eq_nil_iff_forall_not_mem]
  intro i hi
  have := (hInv.mintMem i).mp hi
  rw [mintFlight_nil_of_done s.tasks h] at this
  cases this

theorem all_done_step (s : SysState) (a : Nat × Outcome)
    (h : ∀ t ∈ s.tasks, taskDone t = true) :
    ∀ t ∈ (sysStep s a).tasks, taskDone t = true := by
  intro t ht
  cases hget : s.tasks.get? a.1 with
  | none => rw [sysStep_none s a hget] at ht; exact h t ht
  | some t0 =>
    have hd0 := h t0 (List.get?_mem hget)
    cases t0 with
    | mint c ph =>
      cases ph with
      | done r =>
        simp only [sysStep, hget, mintStep_tasks, mintStep_done] at ht
        rcases List.mem_or_eq_of_mem_set ht with ht2 | rfl
        · exact h t ht2
        · exact hd0
      | entry => simp [taskDone] at hd0
      | sent => simp [taskDone] at hd0
      | confirmWait => simp [taskDone] at hd0
      | dbWrite v => simp [taskDone] at hd0
      | errWrite m => simp [taskDone] at hd0
    | statusUpd c ph =>
      cases ph with
      | done r =>
        have : statusStep s c (.done r) a.2 = (s, .done r) := rfl
        simp only [sysStep, hget, statusStep_tasks, this] at ht
        rcases List.mem_or_eq_of_mem_set ht with ht2 | rfl
        · exact h t ht2
        · exact hd0
      | entry => simp [taskDone] at hd0
      | sent => simp [taskDone] at hd0
      | confirmWait => simp [taskDone] at hd0

/-- Appending a fresh entry task preserves the master invariant. -/
theorem inv_append_entry (s : SysState) (hInv : Inv s) (t : EngineTask)
    (h : taskAtEntry t = true) :
    Inv { s with tasks := s.tasks ++ [t] } := by
  have hmf : mintFlightOf t = none := by
    cases t with
    | mint c ph => cases ph <;> simp_all [taskAtEntry, mintFlightOf, MintPhase.inFlight]
    | statusUpd c ph => rfl
  have hmp : mintPastOf t = none := by
    cases t with
    | mint c ph => cases ph <;> simp_all [taskAtEntry, mintPastOf, MintPhase.pastGuards]
    | statusUpd c ph => rfl
  have hsf : statusFlightOf t = none := by
    cases t with
    | mint c ph => rfl
    | statusUpd c ph =>
        cases ph <;> simp_all [taskAtEntry, statusFlightOf, StatusPhase.inFlight]
  have hsp : statusPastOf t = none := by
    cases t with
    | mint c ph => rfl
    | statusUpd c ph =>
        cases ph <;> simp_all [taskAtEntry, statusPastOf, StatusPhase.pastGuards]
  have e1 : mintInFlightIds (s.tasks ++ [t]) = mintInFlightIds s.tasks := by
    unfold mintInFlightIds
    rw [List.filterMap_append]
    simp [hmf]
  have e2 : mintPastIds (s.tasks ++ [t]) = mintPastIds s.tasks := by
    unfold mintPastIds
    rw [List.filterMap_append]
    simp [hmp]
  have e3 : statusInFlightPairs (s.tasks ++ [t]) = statusInFlightPairs s.tasks := by
    unfold statusInFlightPairs
    rw [List.filterMap_append]
    simp [hsf]
  have e4 : statusPastPairs (s.tasks ++ [t]) = statusPastPairs s.tasks := by
    unfold statusPastPairs
    rw [List.filterMap_append]
    simp [hsp]
  refine ⟨?_, hInv.mintNodupReg, ?_, ?_, ?_, hInv.statusNodupReg, ?_, ?_, ?_⟩
  · intro i; simpa [e1] using hInv.mintMem i
  · simpa [e1] using hInv.mintNodupHold
  · intro i; simpa [e2] using hInv.mintCount i
  · intro k; simpa [statusHolderKeys, e3] using hInv.statusMem k
  · simpa [statusHolderKeys, e3] using hInv.statusNodupHold
  · intro p; simpa [e4] using hInv.statusCount p
  · intro c0 hc
    rcases List.mem_append.mp hc with hc1 | hc2
    · exact hInv.guardMintedTruthy c0 hc1
    · rw [List.mem_singleton] at hc2
      rw [← hc2] at h
      simp [taskAtEntry] at h

/-- Appending events that contain no submission preserves the master
invariant. -/
theorem inv_append_events (s : SysState) (hInv : Inv s) (es : List Ev)
    (h6 : submitIds es = []) (h7 : statusSubmitPairs es = []) :
    Inv { s with events := s.events ++ es } := by
  have e5 : submitIds (s.events ++ es) = submitIds s.events := by
    unfold submitIds at h6 ⊢
    rw [List.filterMap_append, h6, List.append_nil]
  have e6 : statusSubmitPairs (s.events ++ es) = statusSubmitPairs s.events := by
    unfold statusSubmitPairs at h7 ⊢
    rw [List.filterMap_append, h7, List.append_nil]
  exact ⟨hInv.mintMem, hInv.mintNodupReg, hInv.mintNodupHold,
    fun i => by rw [e5]; exact hInv.mintCount i,
    hInv.statusMem, hInv.statusNodupReg, hInv.statusNodupHold,
    fun p => by rw [e6]; exact hInv.statusCount p,
    hInv.guardMintedTruthy⟩

theorem filterMap_length_le_one {α β : Type} (f : α → Option β) (l : List α)
    (h : ∀ j a, j + 1 < l.length → l.get? j = some a → f a = none) :
    (l.filterMap f).length ≤ 1 := by
  induction l with
  | nil => simp
  | cons a l ih =>
    cases l with
    | nil =>
      rw [List.filterMap_cons]
      cases f a <;> simp
    | cons b r =>
      have ha : f a = none := h 0 a (by simp) rfl
      rw [List.filterMap_cons_none ha]
      exact ih fun j x hj hx => h (j + 1) x (by simpa using hj) hx

/-- Explicit form of the spawn step: calling mint on a fetched record
with empty registry and null receipt registers the id, submits the
create, and leaves the invocation in flight. -/
theorem spawn_eq (sys : SysState) (cR : Complaint)
    (hmem : cR.id ∉ sys.procMint) (htx : cR.tx_hash = none) :
    sysStep { sys with tasks := sys.tasks ++ [EngineTask.mint cR .entry] }
        (sys.tasks.length, .ok "")
      = { sys with tasks := sys.tasks ++ [EngineTask.mint cR .sent],
                   procMint := cR.id :: sys.procMint,
                   events := sys.events
                     ++ [.submitCreate cR.id (cityOf cR) (categoryOf cR)] } := by
  have hget : ({ sys with tasks := sys.tasks ++ [EngineTask.mint cR .entry] }
      : SysState).tasks.get? sys.tasks.length = some (.mint cR .entry) :=
    List.get?_concat_length sys.tasks _
  have htr : ¬ (strTruthy cR.tx_hash = true) := by
    rw [htx]; simp [strTruthy]
  simp only [sysStep, hget, mintStep, if_neg hmem, if_neg htr]
  rw [set_concat]

/-- Invariant of the startup procedure: the spawned tasks correspond in
order to a completed-then-current window of the fetched backlog, every
task but the last spawned one is done, the create submissions are
exactly the ids of the spawned window in order, and the subscription
event appears exactly when the loop has finished. -/
structure StartInv (fetched : List Complaint) (st : StartState) : Prop where
  inv : Inv st.sys
  hlen : st.sys.tasks.length ≤ fetched.length
  corr : ∀ j t, st.sys.tasks.get? j = some t →
      ∃ c ph, fetched.get? j = some c ∧ t = EngineTask.mint c ph ∧
        ph ≠ MintPhase.entry
  prevDone : ∀ j t, j + 1 < st.sys.tasks.length →
      st.sys.tasks.get? j = some t → taskDone t = true
  sub : submitIds st.sys.events
      = (fetched.take st.sys.tasks.length).map fun c => c.id
  ready_h : st.rph = RPhase.ready →
      st.sys.tasks.length = st.ridx ∧ ∀ t ∈ st.sys.tasks, taskDone t = true
  wait_h : st.rph = RPhase.waitMint → st.sys.tasks.length = st.ridx + 1
  sleep_h : st.rph = RPhase.sleeping →
      st.sys.tasks.length = st.ridx + 1 ∧ ∀ t ∈ st.sys.tasks, taskDone t = true
  fin_h : st.rph = RPhase.finished →
      st.sys.tasks.length = fetched.length ∧ ∀ t ∈ st.sys.tasks, taskDone t = true
  subsIff : Ev.subscribeActive ∈ st.sys.events ↔ st.rph = RPhase.finished

theorem startInv_init (db : List Complaint) :
    StartInv (backlogFetch db) (startInit db) := by
  refine ⟨inv_init [] _ (by intro t ht; exact absurd ht (List.not_mem_nil t)),
    by simp [startInit, mkInit], ?_, ?_, rfl, ?_, ?_, ?_, ?_, ?_⟩
  · intro j t hj
    simp [startInit, mkInit] at hj
  · intro j t hj1 hj2
    simp [startInit, mkInit] at hj2
  · intro h
    exact ⟨rfl, fun t ht => absurd ht (List.not_mem_nil t)⟩
  · intro h; exact absurd h (by simp [startInit])
  · intro h; exact absurd h (by simp [startInit])
  · intro h; exact absurd h (by simp [startInit])
  · constructor
    · intro h; exact absurd h (List.not_mem_nil _)
    · intro h; exact absurd h (by simp [startInit])

theorem startInv_step (fetched : List Complaint)
    (hf : ∀ c ∈ fetched, c.tx_hash = none)
    (st : StartState) (hSI : StartInv fetched st) (a : StartAct) :
    StartInv fetched (startStep fetched st a) := by
  obtain ⟨sys, ridx, rph⟩ := st
  obtain ⟨hInv, hlen, hcorr, hprev, hsub, hready, hwait, hsleep, hfin, hsubs⟩ := hSI
  dsimp only at hInv hlen hcorr hprev hsub hready hwait hsleep hfin hsubs
  cases a with
  | task i o =>
    cases hget : sys.tasks.get? i with
    | none =>
      have heq : startStep fetched ⟨sys, ridx, rph⟩ (.task i o)
          = ⟨sys, ridx, rph⟩ := by
        simp only [startStep, sysStep_none sys (i, o) hget]
      rw [heq]
      exact ⟨hInv, hlen, hcorr, hprev, hsub, hready, hwait, hsleep, hfin, hsubs⟩
    | some t0 =>
      obtain ⟨c, ph, hfc, rfl, hphe⟩ := hcorr i t0 hget
      have he : (sysStep sys (i, o)).events = (mintStep sys c ph o).1.events := by
        simp only [sysStep, hget]
      have hstep : startStep fetched ⟨sys, ridx, rph⟩ (.task i o)
          = ⟨sysStep sys (i, o), ridx, rph⟩ := rfl
      rw [hstep]
      refine ⟨inv_step sys hInv (i, o), ?_, ?_, ?_, ?_, ?_, ?_, ?_, ?_, ?_⟩ <;> dsimp only
      · rw [sysStep_length]; exact hlen
      · intro j t hj
        by_cases hij : i = j
        · subst hij
          rw [sysStep_get_mint sys i o c ph hget] at hj
          obtain rfl : t = _ := (Option.some.inj hj).symm
          exact ⟨c, _, hfc, rfl, mintStep_phase_ne_entry sys c ph o⟩
        · rw [sysStep_get_ne sys i j o hij] at hj
          exact hcorr j t hj
      · intro j t hj1 hj2
        rw [sysStep_length] at hj1
        by_cases hij : i = j
        · subst hij
          rw [sysStep_get_mint sys i o c ph hget] at hj2
          obtain rfl : t = _ := (Option.some.inj hj2).symm
          have hd := hprev i _ hj1 hget
          cases ph with
          | done r => exact hd
          | entry => simp [taskDone] at hd
          | sent => simp [taskDone] at hd
          | confirmWait => simp [taskDone] at hd
          | dbWrite v => simp [taskDone] at hd
          | errWrite m => simp [taskDone] at hd
        · rw [sysStep_get_ne sys i j o hij] at hj2
          exact hprev j t hj1 hj2
      · rw [he, mintStep_submitIds sys c ph o hphe, sysStep_length]
        exact hsub
      · intro h
        obtain ⟨h1, h2⟩ := hready h
        exact ⟨by rw [sysStep_length]; exact h1, all_done_step sys (i, o) h2⟩
      · intro h; rw [sysStep_length]; exact hwait h
      · intro h
        obtain ⟨h1, h2⟩ := hsleep h
        exact ⟨by rw [sysStep_length]; exact h1, all_done_step sys (i, o) h2⟩
      · intro h
        obtain ⟨h1, h2⟩ := hfin h
        exact ⟨by rw [sysStep_length]; exact h1, all_done_step sys (i, o) h2⟩
      · rw [he, mintStep_subscribe]
        exact hsubs
  | recon =>
    cases rph with
    | ready =>
      obtain ⟨hlr, hall⟩ := hready rfl
      cases hgf : fetched.get? ridx with
      | some cR =>
        have hpm : sys.procMint = [] := procMint_nil_of_done sys hInv hall
        have hmem : cR.id ∉ sys.procMint := by
          rw [hpm]; exact List.not_mem_nil _
        have htx : cR.tx_hash = none := hf cR (List.get?_mem hgf)
        have hstep : startStep fetched ⟨sys, ridx, .ready⟩ .recon
            = ⟨{ sys with tasks := sys.tasks ++ [EngineTask.mint cR .sent],
                          procMint := cR.id :: sys.procMint,
                          events := sys.events
                            ++ [.submitCreate cR.id (cityOf cR) (categoryOf cR)] },
               ridx, .waitMint⟩ := by
          simp only [startStep, hgf]
          rw [spawn_eq sys cR hmem htx]
        rw [hstep]
        have hlt : ridx < fetched.length := (List.get?_eq_some.mp hgf).1
        refine ⟨?_, ?_, ?_, ?_, ?_, ?_, ?_, ?_, ?_, ?_⟩ <;> dsimp only
        · have h1 := inv_append_entry sys hInv (.mint cR .entry) rfl
          have h2 := inv_step _ h1 (sys.tasks.length, Outcome.ok "")
          rw [spawn_eq sys cR hmem htx] at h2
          exact h2
        · simp only [List.length_append, List.length_cons, List.length_nil]
          omega
        · intro j t hj
          rcases Nat.lt_trichotomy j sys.tasks.length with hj2 | hj2 | hj2
          · rw [List.get?_append hj2] at hj
            exact hcorr j t hj
          · subst hj2
            rw [List.get?_concat_length] at hj
            obtain rfl : t = _ := (Option.some.inj hj).symm
            refine ⟨cR, .sent, ?_, rfl, by simp⟩
            rw [hlr]; exact hgf
          · have hnone : (sys.tasks ++ [EngineTask.mint cR .sent]).get? j = none :=
              List.get?_eq_none.mpr (by simp only [List.length_append]; simp; omega)
            rw [hnone] at hj; cases hj
        · intro j t hj1 hj2
          simp only [List.length_append, List.length_cons, List.length_nil] at hj1
          have hjlt : j < sys.tasks.length := by omega
          rw [List.get?_append hjlt] at hj2
          exact hall t (List.get?_mem hj2)
        · have hse : submitIds (sys.events
              ++ [Ev.submitCreate cR.id (cityOf cR) (categoryOf cR)])
              = submitIds sys.events ++ [cR.id] := by
            unfold submitIds; rw [List.filterMap_append]; rfl
          have hge : fetched[sys.tasks.length]? = some cR := by
            rw [← List.get?_eq_getElem?, hlr]; exact hgf
          simp only [hse, hsub, List.length_append, List.length_cons, List.length_nil]
          rw [List.take_succ, hge, List.map_append]
          rfl
        · intro h; exact absurd h (by decide)
        · intro h
          simp only [List.length_append, List.length_cons, List.length_nil]
          omega
        · intro h; exact absurd h (by decide)
        · intro h; exact absurd h (by decide)
        · constructor
          · intro h
            rcases List.mem_append.mp h with h1 | h2
            · exact absurd (hsubs.mp h1) (by decide)
            · rw [List.mem_singleton] at h2; cases h2
          · intro h; exact absurd h (by decide)
      | none =>
        have hlenf : sys.tasks.length = fetched.length := by
          have := List.get?_eq_none.mp hgf
          omega
        have hstep : startStep fetched ⟨sys, ridx, .ready⟩ .recon
            = ⟨{ sys with events := sys.events ++ [Ev.subscribeActive] },
               ridx, .finished⟩ := by
          simp only [startStep, hgf]
        rw [hstep]
        refine ⟨inv_append_events sys hInv _ rfl rfl, hlen, hcorr, hprev, ?_,
          ?_, ?_, ?_, ?_, ?_⟩ <;> dsimp only
        · have hse : submitIds (sys.events ++ [Ev.subscribeActive])
              = submitIds sys.events := by
            unfold submitIds; rw [List.filterMap_append]; simp
          rw [hse]; exact hsub
        · intro h; exact absurd h (by decide)
        · intro h; exact absurd h (by decide)
        · intro h; exact absurd h (by decide)
        · intro _; exact ⟨hlenf, hall⟩
        · constructor
          · intro _; rfl
          · intro _; exact List.mem_append_right _ (List.mem_singleton.mpr rfl)
    | waitMint =>
      have hlw := hwait rfl
      cases hgt : sys.tasks.get? ridx with
      | some t0 =>
        by_cases hd : taskDone t0 = true
        · have hstep : startStep fetched ⟨sys, ridx, .waitMint⟩ .recon
              = ⟨sys, ridx, .sleeping⟩ := by
            simp only [startStep, hgt, if_pos hd]
          rw [hstep]
          refine ⟨hInv, hlen, hcorr, hprev, hsub, ?_, ?_, ?_, ?_, ?_⟩ <;> dsimp only
          · intro h; exact absurd h (by decide)
          · intro h; exact absurd h (by decide)
          · intro _
            refine ⟨hlw, ?_⟩
            intro t ht
            obtain ⟨j, hj⟩ := List.mem_iff_get?.mp ht
            by_cases hjr : j = ridx
            · subst hjr
              rw [hj] at hgt
              rw [Option.some.inj hgt]
              exact hd
            · have hjl : j < sys.tasks.length := (List.get?_eq_some.mp hj).1
              have hj1 : j + 1 < sys.tasks.length := by omega
              exact hprev j t hj1 hj
          · intro h; exact absurd h (by decide)
          · constructor
            · intro h; exact absurd (hsubs.mp h) (by decide)
            · intro h; exact absurd h (by decide)
        · have hstep : startStep fetched ⟨sys, ridx, .waitMint⟩ .recon
              = ⟨sys, ridx, .waitMint⟩ := by
            simp only [startStep, hgt, if_neg hd]
          rw [hstep]
          exact ⟨hInv, hlen, hcorr, hprev, hsub, hready, hwait, hsleep, hfin, hsubs⟩
      | none =>
        have hstep : startStep fetched ⟨sys, ridx, .waitMint⟩ .recon
            = ⟨sys, ridx, .waitMint⟩ := by
          simp only [startStep, hgt]
        rw [hstep]
        exact ⟨hInv, hlen, hcorr, hprev, hsub, hready, hwait, hsleep, hfin, hsubs⟩
    | sleeping =>
      obtain ⟨hls, halls⟩ := hsleep rfl
      have hstep : startStep fetched ⟨sys, ridx, .sleeping⟩ .recon
          = ⟨sys, ridx + 1, .ready⟩ := rfl
      rw [hstep]
      refine ⟨hInv, hlen, hcorr, hprev, hsub, ?_, ?_, ?_, ?_, ?_⟩ <;> dsimp only
      · intro _; exact ⟨hls, halls⟩
      · intro h; exact absurd h (by decide)
      · intro h; exact absurd h (by decide)
      · intro h; exact absurd h (by decide)
      · constructor
        · intro h; exact absurd (hsubs.mp h) (by decide)
        · intro h; exact absurd h (by decide)
    | finished =>
      exact ⟨hInv, hlen, hcorr, hprev, hsub, hready, hwait, hsleep, hfin, hsubs⟩

theorem startInv_exec (db : List Complaint) (sch : List StartAct) :
    StartInv (backlogFetch db) (startExec db sch) := by
  have hf : ∀ c ∈ backlogFetch db, c.tx_hash = none :=
    fun c hc => backlogFetch_null db c hc
  suffices h : ∀ (sch2 : List StartAct) (st : StartState),
      StartInv (backlogFetch db) st →
      StartInv (backlogFetch db) (sch2.foldl (startStep (backlogFetch db)) st) by
    exact h sch _ (startInv_init db)
  intro sch2
  induction sch2 with
  | nil => exact fun st h => h
  | cons a sch2 ih => exact fun st h => ih _ (startInv_step _ hf st h a)

/-- C5: the backlog reconciler fetches exactly the records with null
receipt in ascending id order, and over any startup schedule: the
create submissions are, in order, an initial window of those ids with
each fetched record minted at most once, at most one mint is in flight
at any time, every invocation before the current one has reached its
terminal outcome, and once the subscription activation event has been
emitted all fetched records have been submitted and every mint has
reached a terminal outcome. -/
theorem backlog_reconciler_spec (db : List Complaint)
    (hn : (db.map fun c => c.id).Nodup) (sch : List StartAct) :
    (∀ c, c ∈ backlogFetch db ↔ c ∈ db ∧ c.tx_hash = none) ∧
    List.Sorted (fun a b => a ≤ b) ((backlogFetch db).map fun c => c.id) ∧
    ((backlogFetch db).map fun c => c.id).Nodup ∧
    submitIds (startExec db sch).sys.events
      = ((backlogFetch db).take (startExec db sch).sys.tasks.length).map
          (fun c => c.id) ∧
    (mintInFlightIds (startExec db sch).sys.tasks).length ≤ 1 ∧
    (∀ j t, j + 1 < (startExec db sch).sys.tasks.length →
        (startExec db sch).sys.tasks.get? j = some t → taskDone t = true) ∧
    (Ev.subscribeActive ∈ (startExec db sch).sys.events →
        submitIds (startExec db sch).sys.events
          = (backlogFetch db).map (fun c => c.id) ∧
        ∀ t ∈ (startExec db sch).sys.tasks, taskDone t = true) := by
  have hSI := startInv_exec db sch
  refine ⟨backlogFetch_mem db, ?_, backlogFetch_nodup db hn, hSI.sub, ?_,
    hSI.prevDone, ?_⟩
  · exact List.Pairwise.map _ (fun a b h => h) (backlogFetch_sorted db)
  · apply filterMap_length_le_one
    intro j a hj ha
    exact taskDone_flight_none a (hSI.prevDone j a hj ha)
  · intro hmem
    have hfin := hSI.fin_h (hSI.subsIff.mp hmem)
    constructor
    · rw [hSI.sub, hfin.1, List.take_length]
    · exact hfin.2

/-- Concrete table and startup schedule for the backlog witness: the
record with id 2 has no receipt, the record with id 1 is already
minted. -/
def dbW : List Complaint := [⟨2, "pending", none, none, none, none⟩,
  ⟨1, "pending", none, none, none, some "0x"⟩]

/-- Startup schedule that drains the single-record backlog to the end
and then activates the subscription. -/
def schW : List StartAct := [.recon, .task 0 (.ok "t"), .task 0 (.ok "h"),
  .task 0 (.ok ""), .recon, .recon, .recon]

theorem backlog_reconciler_spec_witness :
    (∀ c, c ∈ backlogFetch dbW ↔ c ∈ dbW ∧ c.tx_hash = none) ∧
    List.Sorted (fun a b => a ≤ b) ((backlogFetch dbW).map fun c => c.id) ∧
    ((backlogFetch dbW).map fun c => c.id).Nodup ∧
    submitIds (startExec dbW schW).sys.events
      = ((backlogFetch dbW).take (startExec dbW schW).sys.tasks.length).map
          (fun c => c.id) ∧
    (mintInFlightIds (startExec dbW schW).sys.tasks).length ≤ 1 ∧
    (∀ j t, j + 1 < (startExec dbW schW).sys.tasks.length →
        (startExec dbW schW).sys.tasks.get? j = some t → taskDone t = true) ∧
    (Ev.subscribeActive ∈ (startExec dbW schW).sys.events →
        submitIds (startExec dbW schW).sys.events
          = (backlogFetch dbW).map (fun c => c.id) ∧
        ∀ t ∈ (startExec dbW schW).sys.tasks, taskDone t = true) :=
  backlog_reconciler_spec dbW (by decide) schW

/-- C1 amended: there is no single submission chokepoint.  Two live
mint invocations can both have submitted with neither terminal, so
submissions overlap with no sequence numbers assigned; only the
startup backlog loop is serialized, in the sense that at any point of
any startup schedule at most one of its mint invocations is in
flight, because the loop awaits each terminal outcome (and a fixed
2000 ms delay) before calling the next mint. -/
theorem no_single_serializer_amended :
    (submitIds (sysExec (mkInit [.mint cw1 .entry, .mint cw2 .entry] dbNone)
        [(0, .ok "a"), (1, .ok "b")]).events = [1, 2] ∧
     createTerminals (sysExec (mkInit [.mint cw1 .entry, .mint cw2 .entry] dbNone)
        [(0, .ok "a"), (1, .ok "b")]).events = [] ∧
     mintInFlightIds (sysExec (mkInit [.mint cw1 .entry, .mint cw2 .entry] dbNone)
        [(0, .ok "a"), (1, .ok "b")]).tasks = [1, 2]) ∧
    (∀ (db : List Complaint) (sch : List StartAct),
        (mintInFlightIds (startExec db sch).sys.tasks).length ≤ 1) := by
  constructor
  · exact (by decide)
  · intro db sch
    apply filterMap_length_le_one
    intro j a hj ha
    exact taskDone_flight_none a ((startInv_exec db sch).prevDone j a hj ha)

end CivicChain
